import Mathlib

/-!
# tailwind-expand: shallow embedding and verification

This file embeds the core algorithms of the `tailwind-expand` repository:

* the variant prefixer `applyVariantPrefix` (packages/core/src/utils.ts),
* the token expander `expandToken` / `expandClassString` (packages/babel/src/visitor.ts),
* the source scanner's per-match collection (packages/core/src/scanner.ts),
* the recursive alias resolver `expand` (packages/core/src/expander.ts),
* the alias extractor `extractFromRoot` / `parseExpandBlock` (packages/core/src/extractor.ts),

and proves the specification's claims about them.  Strings are handled at the
`List Char` level; JavaScript's `split(/\s+/)`, `lastIndexOf(':')`, truthiness
of strings (`""` is falsy) and `Set` insertion order are modelled explicitly.
-/

namespace TwExpand

/-- The characters matched by JavaScript's `\s` regex class (used by
`split(/\s+/)`) and trimmed by `String.prototype.trim`. -/
def isJsWs (c : Char) : Bool :=
  let n := c.toNat
  n = 32 || n = 9 || n = 10 || n = 11 || n = 12 || n = 13 ||
  n = 0xa0 || n = 0x1680 || (0x2000 <= n && n <= 0x200a) ||
  n = 0x2028 || n = 0x2029 || n = 0x202f || n = 0x205f || n = 0x3000 || n = 0xfeff

/-- `l.split(/\s+/)` at the character level: pieces between maximal runs of
whitespace.  As in JavaScript, a leading (resp. trailing) whitespace run and
the empty string produce empty pieces: `"" ↦ [""]`, `" a" ↦ ["", "a"]`. -/
def splitWsChars : List Char → List (List Char)
  | [] => [[]]
  | c :: cs =>
    if isJsWs c then
      match cs with
      | [] => [] :: splitWsChars cs
      | c2 :: _ => if isJsWs c2 then splitWsChars cs else [] :: splitWsChars cs
    else
      match splitWsChars cs with
      | [] => [[c]]
      | h :: t => (c :: h) :: t

/-- `s.split(/\s+/)` for strings. -/
def splitWs (s : String) : List String :=
  (splitWsChars s.data).map (fun l => String.mk l)

/-- `s.trim()`: strip JavaScript whitespace from both ends. -/
def trimJs (s : String) : String :=
  String.mk (((s.data.dropWhile isJsWs).reverse.dropWhile isJsWs).reverse)

/-- Join a list of character lists with a single separator character,
as JavaScript's `Array.prototype.join` with a one-character separator. -/
def joinSep (sep : Char) : List (List Char) → List Char
  | [] => []
  | [x] => x
  | x :: y :: t => x ++ sep :: joinSep sep (y :: t)

/-- `parts.join(' ')` for strings. -/
def joinSpace (l : List String) : String :=
  String.mk (joinSep ' ' (l.map String.data))

/-- `parts.join(' → ')`, used to format the circular-dependency chain. -/
def joinArrow : List String → String
  | [] => ""
  | [x] => x
  | x :: y :: t => x ++ " → " ++ joinArrow (y :: t)

/-- `CAMEL_CASE_REGEX = /^[A-Z][a-zA-Z0-9]*$/` (packages/core/src/utils.ts). -/
def isCamelCase (s : String) : Bool :=
  match s.data with
  | [] => false
  | c :: cs =>
    ('A' ≤ c && c ≤ 'Z') &&
      cs.all (fun d => ('a' ≤ d && d ≤ 'z') || ('A' ≤ d && d ≤ 'Z') ||
                       ('0' ≤ d && d ≤ '9'))

/-- Alias maps (`AliasMap` in types.ts): JavaScript objects mapping alias
names to space-separated utility strings, modelled as insertion-ordered
association lists; lookups take the first matching key (JS objects never
hold a key twice). -/
abbrev AliasMap := List (String × String)

/-- Property lookup `m[k]` on an alias map. -/
def alookup : AliasMap → String → Option String
  | [], _ => none
  | (k, v) :: rest, name => if k = name then some v else alookup rest name

/-- The number of non-empty whitespace-separated tokens of a string. -/
def countTokens (s : String) : Nat :=
  ((splitWsChars s.data).filter (fun t => t ≠ [])).length

/-! ## VariantPrefixer: `applyVariantPrefix` (packages/core/src/utils.ts)

```ts
export function applyVariantPrefix(variantPrefix: string, utility: string): string {
  if (!variantPrefix) return utility;
  const prefixVariants = new Set(variantPrefix.slice(0, -1).split(':'));
  let result = utility;
  while (true) {
    const colonIdx = result.indexOf(':');
    if (colonIdx === -1) break;
    const firstVariant = result.slice(0, colonIdx);
    if (prefixVariants.has(firstVariant)) {
      result = result.slice(colonIdx + 1);
    } else {
      break;
    }
  }
  return variantPrefix + result;
}
```
-/

/-- The negated colon test, as a named Bool predicate. -/
def notColon (c : Char) : Bool :=
  if c = ':' then false else true

/-- `s.split(':')` at the character level: `"a:b" ↦ ["a", "b"]`, `"" ↦ [""]`,
`"a:" ↦ ["a", ""]`. -/
def splitColonChars : List Char → List (List Char)
  | [] => [[]]
  | c :: cs =>
    match splitColonChars cs with
    | [] => if c = ':' then [[], []] else [[c]]
    | h :: t => if c = ':' then [] :: h :: t else (c :: h) :: t

/-- The `while` loop of `applyVariantPrefix`: repeatedly strip the leading
`segment:` piece of `result` while the segment is among the prefix variants.
Each iteration consumes at least one character, so `fuel = length + 1`
iterations always reach the loop's own exit condition; the fuel-exhausted
branch is unreachable for such fuel (`peelGo_eq_spec` below). -/
def peelGo (pv : List (List Char)) : Nat → List Char → List Char
  | 0, res => res
  | n + 1, res =>
    let pre := res.takeWhile notColon
    if pre.length < res.length then
      if pre ∈ pv then peelGo pv n (res.drop (pre.length + 1)) else res
    else res

/-- `applyVariantPrefix(variantPrefix, utility)` from utils.ts. -/
def applyVariantPrefix (vp : String) (utility : String) : String :=
  if vp = "" then utility
  else
    let pv := splitColonChars vp.data.dropLast
    String.mk (vp.data ++ peelGo pv (utility.data.length + 1) utility.data)

/-- Segment-level peeling following the spec's words: repeatedly remove the
token's leading `segment:` piece while that segment is in the set `S`,
stopping at the first leading segment not in `S` (or when no colon is
left). -/
def peelSegsSpec (S : List (List Char)) : List (List Char) → List (List Char)
  | [] => []
  | [s] => [s]
  | s :: r :: t => if s ∈ S then peelSegsSpec S (r :: t) else s :: r :: t

/-- Modelled on the spec's description of the VariantPrefixer algorithm
(§4.3): empty prefix returns the token unchanged; otherwise let `S` be the
set of the canonical prefix's colon-separated segments (the trailing colon
being the terminator), peel the token's leading segments while they are in
`S`, and prepend the full prefix string to the remainder. -/
def specApplyVariantPrefix (vp : String) (utility : String) : String :=
  if vp = "" then utility
  else
    let S := splitColonChars vp.data.dropLast
    String.mk (vp.data ++ joinSep ':' (peelSegsSpec S (splitColonChars utility.data)))

/-! ## TokenExpander (packages/babel/src/visitor.ts) -/

/-- Split a token at its last colon, as
`lastColonIndex = workingToken.lastIndexOf(':')`,
`variantPrefix = workingToken.slice(0, lastColonIndex + 1)` (empty when
there is no colon), `aliasName = workingToken.slice(lastColonIndex + 1)`. -/
def splitLastColon (cs : List Char) : List Char × List Char :=
  let nameRev := cs.reverse.takeWhile notColon
  (cs.take (cs.length - nameRev.length), nameRev.reverse)

/-- Does the token carry a leading important marker `!`? -/
def hasBangTok (td : List Char) : Bool :=
  match td with
  | '!' :: _ => true
  | _ => false

/-- `workingToken`: the token with a leading `!` stripped. -/
def workingOf (token : String) : List Char :=
  if hasBangTok token.data then token.data.tail else token.data

/-- `importantPrefix`: `!` when the token starts with it, else empty. -/
def ipOf (token : String) : List Char :=
  if hasBangTok token.data then ['!'] else []

/-- `variantPrefix`: the working token up to and including its last colon. -/
def vpOf (token : String) : String :=
  String.mk (splitLastColon (workingOf token)).1

/-- `aliasName`: the working token after its last colon (the candidate alias
name, the rightmost segment). -/
def nameOf (token : String) : String :=
  String.mk (splitLastColon (workingOf token)).2

/-- `expandToken(token, aliases)` from visitor.ts: strip a leading `!`,
split at the last colon into variant prefix and candidate alias name; if the
name matches the CamelCase pattern and `aliases[aliasName]` is truthy (present
and non-empty), split the alias value on whitespace, apply the variant prefix
to each utility, re-attach the important marker and join with single spaces;
otherwise return the token unchanged.  (The `expandedAliases` debug set of the
source is a side channel that never affects the returned string and is not
modelled.) -/
def expandToken (token : String) (aliases : AliasMap) : String :=
  match alookup aliases (nameOf token) with
  | none => token
  | some v =>
    if isCamelCase (nameOf token) = true ∧ v ≠ "" then
      joinSpace ((splitWs v).map
        (fun util => String.mk (ipOf token ++ (applyVariantPrefix (vpOf token) util).data)))
    else token

/-- `expandClassString(classString, aliases)` from visitor.ts:
`split(/\s+/).filter(Boolean)`, expand each token, join with spaces. -/
def expandClassString (classString : String) (aliases : AliasMap) : String :=
  joinSpace (((splitWs classString).filter (fun t => t ≠ "")).map
    (fun t => expandToken t aliases))

/-! ## SourceAliasScanner (packages/core/src/scanner.ts)

The body of `collectVariantAliases`' match loop: given one regex match
`fullMatch`, split at the last colon into variant prefix and alias name,
strip a leading `!`, and if `aliases[aliasName]` is truthy, produce the
variant-prefixed utilities that are added to the output set (an empty list
means nothing is added). -/
/-- The scanner's `variantPrefix`: the match up to and including its last
colon. -/
def scanVpOf (fullMatch : String) : String :=
  String.mk (splitLastColon fullMatch.data).1

/-- The scanner's `aliasName`: the match after its last colon, with a leading
important marker `!` stripped. -/
def scanNameOf (fullMatch : String) : String :=
  String.mk (match (splitLastColon fullMatch.data).2 with
    | '!' :: rest => rest
    | l => l)

def collectForMatch (aliases : AliasMap) (fullMatch : String) : List String :=
  match alookup aliases (scanNameOf fullMatch) with
  | none => []
  | some v =>
    if v ≠ "" then (splitWs v).map (fun util => applyVariantPrefix (scanVpOf fullMatch) util)
    else []

/-! ## AliasResolver: `expand` (packages/core/src/expander.ts)

```ts
export function expand(rawAliases: AliasMap, options?: ExpandOptions): AliasMap {
  const { mergerFn } = options ?? {};
  const expanded: AliasMap = {};
  const resolving = new Set<string>();
  function resolve(aliasName: string): string {
    if (expanded[aliasName] !== undefined) return expanded[aliasName];
    if (rawAliases[aliasName] === undefined) return aliasName;
    if (resolving.has(aliasName)) {
      const cycle = Array.from(resolving).join(' → ') + ' → ' + aliasName;
      throw new Error(`...Circular dependency detected: ` + cycle);
    }
    resolving.add(aliasName);
    const tokens = rawAliases[aliasName].split(/\s+/);
    const resolvedTokens = tokens.map((token) =>
      /^[A-Z][a-zA-Z0-9]*$/.test(token) ? resolve(token) : token);
    resolving.delete(aliasName);
    const result = resolvedTokens.join(' ');
    expanded[aliasName] = mergerFn ? mergerFn(result) : result;
    return expanded[aliasName];
  }
  for (const aliasName of Object.keys(rawAliases)) resolve(aliasName);
  return expanded;
}
```

The recursion is embedded with explicit state (`expanded` memo plus the
`resolving` insertion-ordered set, which is used as a stack) and fuel.  Fuel
only decreases on nested `resolve` calls; since every nested call below a key
pushes a fresh key onto `resolving`, fuel `numKeys + 1` is always sufficient,
which is proved below (`resolveF` never returns `.error .fuel` from
`expandE`). -/

/-- The resolver errors: a detected circular dependency (carrying the thrown
message) or fuel exhaustion (unreachable at the fuel `expandE` supplies). -/
inductive ExpandErr where
  | circular (msg : String)
  | fuel
deriving DecidableEq

/-- The resolver's mutable state: the `expanded` memo object and the
`resolving` set (insertion-ordered; used as a stack). -/
structure ResolveState where
  expanded : AliasMap
  resolving : List String
deriving DecidableEq

/-- The circular-dependency message:
`Array.from(resolving).join(' → ') + ' → ' + aliasName`. -/
def cycleMsg (resolving : List String) (aliasName : String) : String :=
  "[tailwind-expand] Circular dependency detected: " ++
    joinArrow resolving ++ " → " ++ aliasName

/-- `mergerFn ? mergerFn(result) : result`. -/
def applyMerger (merger : Option (String → String)) (s : String) : String :=
  match merger with
  | some f => f s
  | none => s

/-- `tokens.map(token => CAMEL.test(token) ? resolve(token) : token)`, with
the resolver state threaded left to right through the given `resolve`. -/
def resolveTokens (res : ResolveState → String → Except ExpandErr (String × ResolveState)) :
    List String → ResolveState → Except ExpandErr (List String × ResolveState)
  | [], st => .ok ([], st)
  | t :: ts, st =>
    if isCamelCase t then
      match res st t with
      | .error e => .error e
      | .ok (v, st') =>
        match resolveTokens res ts st' with
        | .error e => .error e
        | .ok (vs, st'') => .ok (v :: vs, st'')
    else
      match resolveTokens res ts st with
      | .error e => .error e
      | .ok (vs, st'') => .ok (t :: vs, st'')

/-- One unfolding of `resolve(aliasName)`, with `ih` standing for the nested
calls. -/
def resolveStep (raw : AliasMap) (merger : Option (String → String))
    (ih : ResolveState → String → Except ExpandErr (String × ResolveState))
    (st : ResolveState) (aliasName : String) :
    Except ExpandErr (String × ResolveState) :=
  match alookup st.expanded aliasName with
  | some v => .ok (v, st)
  | none =>
    match alookup raw aliasName with
    | none => .ok (aliasName, st)
    | some utilities =>
      if aliasName ∈ st.resolving then
        .error (.circular (cycleMsg st.resolving aliasName))
      else
        match resolveTokens ih (splitWs utilities)
            ⟨st.expanded, st.resolving ++ [aliasName]⟩ with
        | .error e => .error e
        | .ok (resolvedTokens, st2) =>
          let result := applyMerger merger (joinSpace resolvedTokens)
          .ok (result, ⟨st2.expanded ++ [(aliasName, result)],
                        st2.resolving.erase aliasName⟩)

/-- `resolve(aliasName)` with fuel. -/
def resolveF (raw : AliasMap) (merger : Option (String → String)) :
    Nat → ResolveState → String → Except ExpandErr (String × ResolveState)
  | 0 => fun _ _ => .error .fuel
  | n + 1 => resolveStep raw merger (resolveF raw merger n)

/-- The driver loop `for (const aliasName of Object.keys(rawAliases))
resolve(aliasName)` over an explicit iteration order. -/
def runKeysF (raw : AliasMap) (merger : Option (String → String)) (fuel : Nat) :
    List String → ResolveState → Except ExpandErr ResolveState
  | [], st => .ok st
  | k :: ks, st =>
    match resolveF raw merger fuel st k with
    | .error e => .error e
    | .ok (_, st') => runKeysF raw merger fuel ks st'

/-- `expand(rawAliases, { mergerFn })` run with an explicit iteration order
for the driver loop (`Object.keys` order is `raw.map Prod.fst`; the spec
claims the result does not depend on this order). -/
def expandEOrder (raw : AliasMap) (merger : Option (String → String))
    (order : List String) : Except ExpandErr AliasMap :=
  match runKeysF raw merger (raw.length + 1) order ⟨[], []⟩ with
  | .error e => .error e
  | .ok st => .ok st.expanded

/-- `expand(rawAliases, { mergerFn })` from expander.ts (the `Object.keys`
iteration order). -/
def expandE (raw : AliasMap) (merger : Option (String → String)) :
    Except ExpandErr AliasMap :=
  expandEOrder raw merger (raw.map Prod.fst)

/-! ## AliasBlockParser (packages/core/src/extractor.ts)

The PostCSS AST fragment the extractor consumes: at-rules (with name and
params), rules (with selector), and other nodes (declarations, comments),
each holding a child list.  The inductive is declared mutually with its own
node-list type so that all functions over it are structurally recursive (and
hence evaluate by `decide`/`rfl`).  A node with no child container
(`node.nodes === undefined`) behaves exactly like one with an empty child
list under `nodes?.forEach`, so both are modelled as `.nil`. -/

mutual
inductive CssNode where
  | atRule (name : String) (params : String) (body : CssNodes)
  | rule (selector : String) (body : CssNodes)
  | decl
inductive CssNodes where
  | nil
  | cons (head : CssNode) (tail : CssNodes)
end

/-- `s.startsWith('&')`. -/
def startsAmp (s : String) : Bool :=
  match s.data with
  | '&' :: _ => true
  | _ => false

/-- `s.slice(1)`: drop the first character. -/
def dropFirst (s : String) : String :=
  String.mk s.data.tail

/-- `mergeAlias(aliases, name, utilities)` from extractor.ts: concatenate
onto a truthy (non-empty) existing entry, otherwise assign.  Assignment to an
existing key keeps its position; a fresh key is appended. -/
def mergeAlias (m : AliasMap) (name utilities : String) : AliasMap :=
  match alookup m name with
  | some v =>
    if v ≠ "" then m.map (fun p => if p.1 = name then (name, v ++ " " ++ utilities) else p)
    else m.map (fun p => if p.1 = name then (name, utilities) else p)
  | none => m ++ [(name, utilities)]

/-- `validateCamelCase(name, ...)` from extractor.ts; the thrown message
carries the offending name (source file and line are not modelled). -/
def validateCamelCase (name : String) : Except String Unit :=
  if isCamelCase name then .ok ()
  else .error ("[tailwind-expand] Invalid alias name " ++ name ++
    ". Alias names must be CamelCase.")

/-- Fold the direct `@apply` children of a block into the alias map, in
order: `node.nodes?.forEach(child => child is atrule 'apply' ?
mergeAlias(aliases, aliasName, child.params.trim()) : skip)`. -/
def applyFold (body : CssNodes) (aliasName : String) (m : AliasMap) : AliasMap :=
  match body with
  | .nil => m
  | .cons (.atRule nm params _) rest =>
    if nm = "apply" then applyFold rest aliasName (mergeAlias m aliasName (trimJs params))
    else applyFold rest aliasName m
  | .cons _ rest => applyFold rest aliasName m

/-- `parseNestedRule` from extractor.ts, folded over a child list: for each
child rule whose (untrimmed) selector starts with `&`, compose
`aliasName ++ selector.trim().slice(1)`, validate it, merge its direct
`@apply` children, and recurse into its body. -/
def nestedChildren (body : CssNodes) (aliasName : String) (m : AliasMap) :
    Except String AliasMap :=
  match body with
  | .nil => .ok m
  | .cons (.rule sel2 b2) rest =>
    if startsAmp sel2 then
      let name2 := aliasName ++ dropFirst (trimJs sel2)
      match validateCamelCase name2 with
      | .error e => .error e
      | .ok _ =>
        match nestedChildren b2 name2 (applyFold b2 name2 m) with
        | .error e => .error e
        | .ok m' => nestedChildren rest aliasName m'
    else nestedChildren rest aliasName m
  | .cons _ rest => nestedChildren rest aliasName m

/-- `parseExpandBlock(atRule, prefix, aliases, ...)` from extractor.ts,
folded over the block's child list: direct `@apply` children merge into the
block's own entry; child rules whose trimmed selector starts with `&` open a
sub-alias `prefix ++ selector.trim().slice(1)` (validated), merge their
direct `@apply` children, and recurse via `parseNestedRule`. -/
def parseExpandChildren (body : CssNodes) (pfx : String) (m : AliasMap) :
    Except String AliasMap :=
  match body with
  | .nil => .ok m
  | .cons (.atRule nm params _) rest =>
    if nm = "apply" then parseExpandChildren rest pfx (mergeAlias m pfx (trimJs params))
    else parseExpandChildren rest pfx m
  | .cons (.rule sel b) rest =>
    if startsAmp (trimJs sel) then
      let aliasName := pfx ++ dropFirst (trimJs sel)
      match validateCamelCase aliasName with
      | .error e => .error e
      | .ok _ =>
        match nestedChildren b aliasName (applyFold b aliasName m) with
        | .error e => .error e
        | .ok m' => parseExpandChildren rest pfx m'
    else parseExpandChildren rest pfx m
  | .cons .decl rest => parseExpandChildren rest pfx m

/-- `root.walkAtRules('expand', ...)`: collect every `@expand` at-rule in the
tree in document (pre-)order, as `(params, body)` pairs. -/
def collectExpandAtRules : CssNodes → List (String × CssNodes)
  | .nil => []
  | .cons (.atRule nm params b) rest =>
    (if nm = "expand" then [(params, b)] else []) ++
      collectExpandAtRules b ++ collectExpandAtRules rest
  | .cons (.rule _ b) rest => collectExpandAtRules b ++ collectExpandAtRules rest
  | .cons .decl rest => collectExpandAtRules rest

/-- Process the collected `@expand` blocks in order: validate the trimmed
params as the component name, then parse the block. -/
def extractGo : List (String × CssNodes) → AliasMap → Except String AliasMap
  | [], m => .ok m
  | (params, body) :: rest, m =>
    let componentName := trimJs params
    match validateCamelCase componentName with
    | .error e => .error e
    | .ok _ =>
      match parseExpandChildren body componentName m with
      | .error e => .error e
      | .ok m' => extractGo rest m'

/-- `extractFromRoot(root, ...)` from extractor.ts. -/
def extractFromRoot (root : CssNodes) : Except String AliasMap :=
  extractGo (collectExpandAtRules root) []

/-! ## Semantics of the resolver

`edgeE raw k t` is the alias-reference relation: key `k`'s raw value contains
the CamelCase token `t`, which is itself a key.  A RawAliasMap is cycle-free
exactly when this relation admits a strictly decreasing rank (no chain of
alias references revisits a name).  `idealVal` is the order-independent
denotation of resolution, defined by recursion on such a rank; the master
lemma below shows the memoized DFS computes it. -/

def edgeE (raw : AliasMap) (k t : String) : Prop :=
  ∃ v, alookup raw k = some v ∧ isCamelCase t = true ∧ t ∈ splitWs v ∧
    (alookup raw t).isSome = true

def idealVal (raw : AliasMap) (merger : Option (String → String))
    (rank : String → Nat) (name : String) : String :=
  match alookup raw name with
  | none => name
  | some v =>
    applyMerger merger (joinSpace ((splitWs v).map
      (fun t =>
        if h : isCamelCase t = true ∧ (alookup raw t).isSome = true ∧
            rank t < rank name then
          idealVal raw merger rank t
        else t)))
termination_by rank name
decreasing_by exact h.2.2

/-- The memo invariant: every memoized entry is a raw key bound to its ideal
value. -/
def MemoOk (raw : AliasMap) (merger : Option (String → String))
    (rank : String → Nat) (st : ResolveState) : Prop :=
  ∀ p ∈ st.expanded, (alookup raw p.1).isSome = true ∧
    p.2 = idealVal raw merger rank p.1

/-- Names on the resolution stack are not yet memoized. -/
def StackFresh (st : ResolveState) : Prop :=
  ∀ k ∈ st.resolving, alookup st.expanded k = none

/-- Precondition of a `resolve(name)` call: if `name` is a key, its rank lies
strictly below everything on the stack. -/
def RankBelow (raw : AliasMap) (rank : String → Nat) (st : ResolveState)
    (name : String) : Prop :=
  (alookup raw name).isSome = true → ∀ r ∈ st.resolving, rank name < rank r

/-- The number of raw keys not yet on the resolution stack; the fuel measure. -/
def remKeys (raw : AliasMap) (res : List String) : Nat :=
  ((raw.map Prod.fst).filter (fun k => decide (k ∉ res))).length

def Safe (raw : AliasMap) (k : String) : Prop :=
  ∀ u, Relation.ReflTransGen (edgeE raw) k u →
    ¬ Relation.TransGen (edgeE raw) u u

def MemoSafe (raw : AliasMap) (st : ResolveState) : Prop :=
  ∀ p ∈ st.expanded, Safe raw p.1

/-- A selector is well-modified when, if it opens a sub-alias (its raw or
trimmed form starts with `&`), its trimmed form has at least one character
after the `&`, so the sub-alias name strictly extends every ancestor name. -/
def goodSel (sel : String) : Bool :=
  !(startsAmp sel || startsAmp (trimJs sel)) ||
    decide (2 ≤ (trimJs sel).data.length)

/-- Every rule descendant of the tree has a well-modified selector. -/
def goodNodes : CssNodes → Bool
  | .nil => true
  | .cons (.rule sel b) rest => goodSel sel && goodNodes b && goodNodes rest
  | .cons (.atRule _ _ b) rest => goodNodes b && goodNodes rest
  | .cons .decl rest => goodNodes rest

/-- The block has zero direct `@apply` statements (a pure namespace
container). -/
def noDirectApply : CssNodes → Bool
  | .nil => true
  | .cons (.atRule nm _ _) rest => !decide (nm = "apply") && noDirectApply rest
  | .cons _ rest => noDirectApply rest

/-! ## Lemmas about colon splitting and the peel loop -/

theorem splitColonChars_ne_nil (l : List Char) : splitColonChars l ≠ [] := by
  induction l with
  | nil => simp [splitColonChars]
  | cons c cs ih =>
    cases h : splitColonChars cs with
    | nil => exact absurd h ih
    | cons hd t =>
      simp only [splitColonChars, h]
      split <;> simp

theorem joinSep_cons_cons (sep : Char) (x y : List Char) (t : List (List Char)) :
    joinSep sep (x :: y :: t) = x ++ sep :: joinSep sep (y :: t) := rfl

theorem splitColon_roundtrip (l : List Char) :
    joinSep ':' (splitColonChars l) = l := by
  induction l with
  | nil => rfl
  | cons c cs ih =>
    cases h : splitColonChars cs with
    | nil => exact absurd h (splitColonChars_ne_nil cs)
    | cons hd t =>
      rw [h] at ih
      simp only [splitColonChars, h]
      by_cases hc : c = ':'
      · subst hc
        rw [if_pos rfl, joinSep_cons_cons, List.nil_append, ih]
      · rw [if_neg hc]
        cases t with
        | nil => exact congrArg (fun l => c :: l) ih
        | cons t1 t2 =>
          rw [joinSep_cons_cons] at ih ⊢
          rw [List.cons_append, ih]

theorem splitColonChars_cons (c : Char) (cs : List Char) :
    splitColonChars (c :: cs) =
      match splitColonChars cs with
      | [] => if c = ':' then [[], []] else [[c]]
      | h :: t => if c = ':' then [] :: h :: t else (c :: h) :: t := rfl

theorem splitColon_append (a b : List Char) :
    splitColonChars (a ++ ':' :: b) = splitColonChars a ++ splitColonChars b := by
  induction a with
  | nil =>
    cases h : splitColonChars b with
    | nil => exact absurd h (splitColonChars_ne_nil b)
    | cons hd t =>
      rw [List.nil_append, splitColonChars_cons, h]
      simp [splitColonChars]
  | cons c a' ih =>
    cases h1 : splitColonChars a' with
    | nil => exact absurd h1 (splitColonChars_ne_nil a')
    | cons hd t =>
      cases hb : splitColonChars b with
      | nil => exact absurd hb (splitColonChars_ne_nil b)
      | cons hb1 tb =>
        rw [List.cons_append, splitColonChars_cons, ih, h1, hb, splitColonChars_cons, h1]
        simp only [List.cons_append]
        by_cases hc : c = ':' <;> simp [hc]

theorem splitColon_of_no_colon {l : List Char} (h : ∀ c ∈ l, c ≠ ':') :
    splitColonChars l = [l] := by
  induction l with
  | nil => rfl
  | cons c cs ih =>
    have hc : c ≠ ':' := h c (by simp)
    have ih' := ih (fun d hd => h d (by simp [hd]))
    simp only [splitColonChars, ih', if_neg hc]

theorem mem_splitColon_no_colon {l : List Char} :
    ∀ x ∈ splitColonChars l, ∀ c ∈ x, c ≠ ':' := by
  induction l with
  | nil => intro x hx; simp [splitColonChars] at hx; simp [hx]
  | cons c cs ih =>
    intro x hx
    cases h : splitColonChars cs with
    | nil => exact absurd h (splitColonChars_ne_nil cs)
    | cons hd t =>
      simp only [splitColonChars, h] at hx
      by_cases hc : c = ':'
      · rw [if_pos hc] at hx
        rcases List.mem_cons.mp hx with hx | hx
        · simp [hx]
        · exact ih x (by rw [h]; exact hx)
      · rw [if_neg hc] at hx
        rcases List.mem_cons.mp hx with hx | hx
        · subst hx
          intro d hd'
          rcases List.mem_cons.mp hd' with hd' | hd'
          · simpa [hd'] using hc
          · exact ih hd (by simp [h]) d hd'
        · exact ih x (by simp [h, hx])

theorem splitColon_joinSep {L : List (List Char)} (hne : L ≠ [])
    (hnc : ∀ x ∈ L, ∀ c ∈ x, c ≠ ':') :
    splitColonChars (joinSep ':' L) = L := by
  induction L with
  | nil => exact absurd rfl hne
  | cons x t ih =>
    cases t with
    | nil =>
      show splitColonChars x = [x]
      exact splitColon_of_no_colon (hnc x (by simp))
    | cons y t2 =>
      rw [joinSep_cons_cons, splitColon_append,
        splitColon_of_no_colon (hnc x (by simp)),
        ih (by simp) (fun z hz => hnc z (by simp [hz]))]
      rfl

theorem notColon_of_mem_takeWhile {c : Char} {l : List Char}
    (h : c ∈ l.takeWhile notColon) : c ≠ ':' := by
  have h2 := List.mem_takeWhile_imp h
  intro hc
  rw [hc] at h2
  simp [notColon] at h2

/-- Decompose a list at its first colon. -/
theorem takeWhile_colon_decomp {cs : List Char}
    (h : (cs.takeWhile notColon).length < cs.length) :
    cs = cs.takeWhile notColon ++
      ':' :: cs.drop ((cs.takeWhile notColon).length + 1) := by
  induction cs with
  | nil => simp at h
  | cons c cs' ih =>
    by_cases hc : c = ':'
    · subst hc
      simp [List.takeWhile_cons, notColon]
    · have hnc : notColon c = true := by simp [notColon, hc]
      have h' : (cs'.takeWhile notColon).length < cs'.length := by
        simp only [List.takeWhile_cons, hnc, if_pos, List.length_cons] at h
        omega
      conv_lhs => rw [ih h']
      simp [List.takeWhile_cons, hnc, List.drop_succ_cons]

theorem takeWhile_all {l : List Char} {q : Char → Bool}
    (h : (l.takeWhile q).length = l.length) : l.takeWhile q = l :=
  (List.takeWhile_prefix q).eq_of_length h

theorem takeWhile_append_stop {q : Char → Bool} {w : Char} (hw : q w = false)
    (a b : List Char) : (a ++ w :: b).takeWhile q = a.takeWhile q := by
  induction a with
  | nil => simp [List.takeWhile_cons, hw]
  | cons c a' ih =>
    simp only [List.cons_append, List.takeWhile_cons]
    cases hq : q c <;> simp [ih]

theorem peelGo_succ (pv : List (List Char)) (n : Nat) (res : List Char) :
    peelGo pv (n + 1) res =
      if (res.takeWhile notColon).length < res.length then
        if res.takeWhile notColon ∈ pv then
          peelGo pv n (res.drop ((res.takeWhile notColon).length + 1))
        else res
      else res := rfl

/-- The peel loop at adequate fuel computes segment-level peeling. -/
theorem peelGo_eq_spec (pv : List (List Char)) :
    ∀ n cs, cs.length ≤ n →
      peelGo pv (n + 1) cs = joinSep ':' (peelSegsSpec pv (splitColonChars cs)) := by
  intro n
  induction n with
  | zero =>
    intro cs hcs
    have : cs = [] := List.length_eq_zero.mp (Nat.le_zero.mp hcs)
    subst this
    rfl
  | succ m ih =>
    intro cs hcs
    rw [peelGo_succ]
    by_cases hlt : (cs.takeWhile notColon).length < cs.length
    · have hdecomp := takeWhile_colon_decomp hlt
      have hsplit : splitColonChars cs =
          cs.takeWhile notColon ::
            splitColonChars (cs.drop ((cs.takeWhile notColon).length + 1)) := by
        conv_lhs => rw [hdecomp]
        rw [splitColon_append,
          splitColon_of_no_colon (fun c hc => notColon_of_mem_takeWhile hc)]
        rfl
      have hrest_len : (cs.drop ((cs.takeWhile notColon).length + 1)).length ≤ m := by
        rw [List.length_drop]
        omega
      rw [if_pos hlt]
      by_cases hmem : cs.takeWhile notColon ∈ pv
      · rw [if_pos hmem, ih _ hrest_len, hsplit]
        cases h2 : splitColonChars (cs.drop ((cs.takeWhile notColon).length + 1)) with
        | nil => exact absurd h2 (splitColonChars_ne_nil _)
        | cons hd t => simp [peelSegsSpec, hmem]
      · rw [if_neg hmem, hsplit]
        cases h2 : splitColonChars (cs.drop ((cs.takeWhile notColon).length + 1)) with
        | nil => exact absurd h2 (splitColonChars_ne_nil _)
        | cons hd t =>
          have hps : peelSegsSpec pv (cs.takeWhile notColon :: hd :: t) =
              cs.takeWhile notColon :: hd :: t := by
            simp [peelSegsSpec, hmem]
          rw [hps, joinSep_cons_cons, ← h2, splitColon_roundtrip]
          exact hdecomp
    · rw [if_neg hlt]
      have hlen : (cs.takeWhile notColon).length = cs.length :=
        Nat.le_antisymm (List.takeWhile_prefix _).length_le (Nat.le_of_not_lt hlt)
      have htw : cs.takeWhile notColon = cs := takeWhile_all hlen
      have hall : ∀ c ∈ cs, c ≠ ':' := fun c hc =>
        notColon_of_mem_takeWhile (htw ▸ hc)
      rw [splitColon_of_no_colon hall]
      rfl

theorem peelSegs_append {pv L2 : List (List Char)} :
    ∀ L1, (∀ s ∈ L1, s ∈ pv) → L2 ≠ [] →
      peelSegsSpec pv (L1 ++ L2) = peelSegsSpec pv L2 := by
  intro L1
  induction L1 with
  | nil => intro _ _; rfl
  | cons s t ih =>
    intro hmem hne
    have hs : s ∈ pv := hmem s (by simp)
    cases h2 : t ++ L2 with
    | nil =>
      rcases List.append_eq_nil.mp h2 with ⟨_, h⟩
      exact absurd h hne
    | cons y t2 =>
      show peelSegsSpec pv (s :: (t ++ L2)) = _
      rw [h2]
      simp only [peelSegsSpec, if_pos hs]
      rw [← h2]
      exact ih (fun z hz => hmem z (by simp [hz])) hne

theorem peelSegs_idem (pv : List (List Char)) :
    ∀ L, peelSegsSpec pv (peelSegsSpec pv L) = peelSegsSpec pv L := by
  intro L
  induction L with
  | nil => rfl
  | cons s t ih =>
    cases t with
    | nil => rfl
    | cons y t2 =>
      by_cases hs : s ∈ pv
      · simp only [peelSegsSpec, if_pos hs]
        exact ih
      · simp only [peelSegsSpec, if_neg hs]

theorem peelSegs_ne_nil {pv : List (List Char)} :
    ∀ {L}, L ≠ [] → peelSegsSpec pv L ≠ [] := by
  intro L
  induction L with
  | nil => intro h; exact absurd rfl h
  | cons s t ih =>
    intro _
    cases t with
    | nil => simp [peelSegsSpec]
    | cons y t2 =>
      by_cases hs : s ∈ pv
      · simp only [peelSegsSpec, if_pos hs]
        exact ih (by simp)
      · simp [peelSegsSpec, if_neg hs]

theorem peelSegs_subset {pv : List (List Char)} :
    ∀ {L x}, x ∈ peelSegsSpec pv L → x ∈ L := by
  intro L
  induction L with
  | nil => intro x hx; simp [peelSegsSpec] at hx
  | cons s t ih =>
    intro x hx
    cases t with
    | nil => simpa [peelSegsSpec] using hx
    | cons y t2 =>
      by_cases hs : s ∈ pv
      · simp only [peelSegsSpec, if_pos hs] at hx
        exact List.mem_cons_of_mem s (ih hx)
      · simpa only [peelSegsSpec, if_neg hs] using hx

/-! ## Claims C3 and C4: the VariantPrefixer -/

theorem applyVariantPrefix_spec (vp u : String) :
    applyVariantPrefix vp u = specApplyVariantPrefix vp u := by
  by_cases h : vp = ""
  · simp [applyVariantPrefix, specApplyVariantPrefix, h]
  · simp only [applyVariantPrefix, specApplyVariantPrefix, if_neg h]
    rw [peelGo_eq_spec _ u.data.length u.data (Nat.le_refl _)]

/-- Claim C3: for every variant prefix string `p` and utility token `u`,
`applyVariantPrefix(p, u)` returns `u` unchanged when `p` is empty, and
otherwise equals `p` concatenated with the remainder of `u` obtained by
repeatedly removing `u`'s leading `segment:` piece while the segment is in
the set `S` of `p`'s colon-separated segments, stopping at the first leading
segment not in `S` (`specApplyVariantPrefix`); in particular a pseudo-element
segment such as `before` not in `S` is preserved, and an immediate duplicate
such as `hover:` on `hover:bg-primary/90` is collapsed. -/
theorem C3_applyVariantPrefix_follows_spec :
    (∀ u, applyVariantPrefix "" u = u) ∧
    (∀ vp u, applyVariantPrefix vp u = specApplyVariantPrefix vp u) ∧
    applyVariantPrefix "hover:" "before:w-0" = "hover:before:w-0" ∧
    applyVariantPrefix "hover:" "hover:bg-primary/90" = "hover:bg-primary/90" :=
  ⟨fun u => by simp [applyVariantPrefix], applyVariantPrefix_spec, by decide, by decide⟩

theorem canonical_peel (pv : List (List Char)) (pd inner : List Char)
    (hpd : pd = joinSep ':' pv ++ [':']) (hpv : pv ≠ [])
    (hnc : ∀ x ∈ pv, ∀ c ∈ x, c ≠ ':') :
    peelSegsSpec pv (splitColonChars (pd ++ inner)) =
      peelSegsSpec pv (splitColonChars inner) := by
  subst hpd
  cases hq : pv with
  | nil => exact absurd hq hpv
  | cons q0 qt =>
    rw [← hq]
    have : joinSep ':' pv ++ [':'] ++ inner = joinSep ':' pv ++ ':' :: inner := by
      simp
    rw [this, splitColon_append, splitColon_joinSep hpv hnc]
    exact peelSegs_append pv (fun s hs => hs) (splitColonChars_ne_nil inner)

/-- Claim C4: `applyVariantPrefix` is idempotent in its token argument for
every canonical variant prefix (empty, or ending in a colon); in particular
applying `dark:hover:` to `hover:bg-primary` yields `dark:hover:bg-primary`
and re-applying it changes nothing. -/
theorem C4_applyVariantPrefix_idempotent (p u : String)
    (hcanon : p = "" ∨ ∃ l, p.data = l ++ [':']) :
    applyVariantPrefix p (applyVariantPrefix p u) = applyVariantPrefix p u ∧
    applyVariantPrefix "dark:hover:" "hover:bg-primary" = "dark:hover:bg-primary" := by
  refine ⟨?_, by decide⟩
  rcases hcanon with h | ⟨l, hl⟩
  · simp [applyVariantPrefix, h]
  · have hp : p ≠ "" := by
      intro h
      rw [h] at hl
      have := List.append_eq_nil.mp hl.symm
      simp at this
    simp only [applyVariantPrefix, if_neg hp]
    set pv := splitColonChars p.data.dropLast with hpv
    have hdrop : p.data.dropLast = l := by rw [hl, List.dropLast_concat]
    have hnc : ∀ x ∈ pv, ∀ c ∈ x, c ≠ ':' := fun x hx => mem_splitColon_no_colon x hx
    have hpvne : pv ≠ [] := by rw [hpv]; exact splitColonChars_ne_nil _
    have hpd : p.data = joinSep ':' pv ++ [':'] := by
      rw [hpv, hdrop, splitColon_roundtrip, hl]
    refine congrArg String.mk (congrArg (fun r => p.data ++ r) ?_)
    rw [peelGo_eq_spec pv _ _ (Nat.le_refl _), peelGo_eq_spec pv _ _ (Nat.le_refl _),
      canonical_peel pv p.data _ hpd hpvne hnc,
      splitColon_joinSep (peelSegs_ne_nil (splitColonChars_ne_nil u.data))
        (fun x hx => mem_splitColon_no_colon x (peelSegs_subset hx)),
      peelSegs_idem]

/-- Claim C4 witness: the idempotence theorem applied at the canonical prefix
`dark:hover:` and token `hover:bg-primary`. -/
theorem C4_witness :
    ("dark:hover:" = "" ∨ ∃ l, ("dark:hover:" : String).data = l ++ [':']) ∧
    applyVariantPrefix "dark:hover:" (applyVariantPrefix "dark:hover:" "hover:bg-primary") =
      applyVariantPrefix "dark:hover:" "hover:bg-primary" := by
  have hc : ("dark:hover:" = "" ∨ ∃ l, ("dark:hover:" : String).data = l ++ [':']) :=
    Or.inr ⟨("dark:hover" : String).data, by decide⟩
  exact ⟨hc, (C4_applyVariantPrefix_idempotent "dark:hover:" "hover:bg-primary" hc).1⟩

/-! ## Lemmas about whitespace splitting -/

theorem splitWsChars_cons_eq (c : Char) (cs : List Char) :
    splitWsChars (c :: cs) =
      if isJsWs c then
        match cs with
        | [] => [] :: splitWsChars cs
        | c2 :: _ => if isJsWs c2 then splitWsChars cs else [] :: splitWsChars cs
      else
        match splitWsChars cs with
        | [] => [[c]]
        | h :: t => (c :: h) :: t := rfl

theorem splitWsChars_nil_eq : splitWsChars [] = [[]] := rfl

theorem splitWsChars_ne_nil (l : List Char) : splitWsChars l ≠ [] := by
  induction l with
  | nil => rw [splitWsChars_nil_eq]; simp
  | cons c cs ih =>
    rw [splitWsChars_cons_eq]
    by_cases hc : isJsWs c
    · rw [if_pos hc]
      cases cs with
      | nil => rw [splitWsChars_nil_eq]; simp
      | cons c2 cs2 =>
        show (if isJsWs c2 then splitWsChars (c2 :: cs2)
          else [] :: splitWsChars (c2 :: cs2)) ≠ []
        by_cases h2 : isJsWs c2
        · rw [if_pos h2]; exact ih
        · rw [if_neg h2]; simp
    · rw [if_neg hc]
      cases h : splitWsChars cs with
      | nil => simp
      | cons hd t => simp

theorem ws_cons_nil {c : Char} (hc : isJsWs c = true) :
    splitWsChars [c] = [[], []] := by
  rw [splitWsChars_cons_eq, if_pos hc]
  rfl

theorem ws_cons_ws {c c2 : Char} (hc : isJsWs c = true) (hc2 : isJsWs c2 = true)
    (cs : List Char) : splitWsChars (c :: c2 :: cs) = splitWsChars (c2 :: cs) := by
  rw [splitWsChars_cons_eq, if_pos hc]
  show (if isJsWs c2 then splitWsChars (c2 :: cs) else [] :: splitWsChars (c2 :: cs)) = _
  rw [if_pos hc2]

theorem ws_cons_nonws {c c2 : Char} (hc : isJsWs c = true) (hc2 : isJsWs c2 = false)
    (cs : List Char) :
    splitWsChars (c :: c2 :: cs) = [] :: splitWsChars (c2 :: cs) := by
  rw [splitWsChars_cons_eq, if_pos hc]
  show (if isJsWs c2 then splitWsChars (c2 :: cs) else [] :: splitWsChars (c2 :: cs)) = _
  rw [if_neg (by simp [hc2])]

theorem nonws_cons {c : Char} (hc : isJsWs c = false) (cs : List Char) :
    splitWsChars (c :: cs) =
      (c :: (splitWsChars cs).headD []) :: (splitWsChars cs).tail := by
  cases h : splitWsChars cs with
  | nil => exact absurd h (splitWsChars_ne_nil cs)
  | cons hd t =>
    rw [splitWsChars_cons_eq, if_neg (by simp [hc]), h]
    rfl

theorem headD_splitWsChars (l : List Char) :
    (splitWsChars l).headD [] = l.takeWhile (fun c => !isJsWs c) := by
  induction l with
  | nil => rfl
  | cons c cs ih =>
    by_cases hc : isJsWs c
    · cases cs with
      | nil => simp [ws_cons_nil hc, List.takeWhile_cons, hc]
      | cons c2 cs2 =>
        by_cases h2 : isJsWs c2
        · rw [ws_cons_ws hc h2, ih]
          simp [List.takeWhile_cons, hc, h2]
        · rw [ws_cons_nonws hc (by simpa using h2)]
          simp [List.takeWhile_cons, hc]
    · have hc' : isJsWs c = false := by simpa using hc
      rw [nonws_cons hc', ih]
      simp [List.takeWhile_cons, hc']

theorem splitWsChars_all_not_ws {l : List Char} (h : ∀ c ∈ l, isJsWs c = false) :
    splitWsChars l = [l] := by
  induction l with
  | nil => rfl
  | cons c cs ih =>
    rw [nonws_cons (h c (by simp)), ih (fun d hd => h d (by simp [hd]))]
    rfl

theorem mem_splitWsChars_not_ws :
    ∀ {l : List Char} {x}, x ∈ splitWsChars l → ∀ c ∈ x, isJsWs c = false := by
  intro l
  induction l with
  | nil =>
    intro x hx c hc
    rw [splitWsChars_nil_eq] at hx
    simp at hx
    subst hx
    simp at hc
  | cons a cs ih =>
    intro x hx c hc
    by_cases ha : isJsWs a
    · cases cs with
      | nil =>
        rw [ws_cons_nil ha] at hx
        rcases List.mem_cons.mp hx with h | h
        · subst h; simp at hc
        · simp at h; subst h; simp at hc
      | cons c2 cs2 =>
        by_cases h2 : isJsWs c2
        · rw [ws_cons_ws ha h2] at hx
          exact ih hx c hc
        · rw [ws_cons_nonws ha (by simpa using h2)] at hx
          rcases List.mem_cons.mp hx with h | h
          · subst h; simp at hc
          · exact ih h c hc
    · have ha' : isJsWs a = false := by simpa using ha
      rw [nonws_cons ha'] at hx
      rcases List.mem_cons.mp hx with h | h
      · subst h
        rcases List.mem_cons.mp hc with h | h
        · subst h; exact ha'
        · refine ih (x := (splitWsChars cs).headD []) ?_ c h
          cases hs : splitWsChars cs with
          | nil => exact absurd hs (splitWsChars_ne_nil cs)
          | cons hd t => simp [hs]
      · refine ih (x := x) ?_ c hc
        cases hs : splitWsChars cs with
        | nil => exact absurd hs (splitWsChars_ne_nil cs)
        | cons hd t =>
          rw [hs] at h
          simp only [List.tail_cons] at h
          simp [hs, h]

theorem filter_splitWs_ws_cons {w : Char} (hw : isJsWs w = true) (b : List Char) :
    (splitWsChars (w :: b)).filter (fun t => t ≠ []) =
      (splitWsChars b).filter (fun t => t ≠ []) := by
  cases b with
  | nil =>
    rw [ws_cons_nil hw, splitWsChars_nil_eq]
    simp
  | cons c2 b' =>
    by_cases h2 : isJsWs c2
    · rw [ws_cons_ws hw h2]
    · rw [ws_cons_nonws hw (by simpa using h2)]
      simp

theorem filter_splitWs_append {w : Char} (hw : isJsWs w = true) (a b : List Char) :
    (splitWsChars (a ++ w :: b)).filter (fun t => t ≠ []) =
      (splitWsChars a).filter (fun t => t ≠ []) ++
        (splitWsChars b).filter (fun t => t ≠ []) := by
  induction a with
  | nil =>
    rw [List.nil_append, filter_splitWs_ws_cons hw, splitWsChars_nil_eq]
    simp
  | cons c a' ih =>
    by_cases hc : isJsWs c
    · cases a' with
      | nil =>
        simp only [List.cons_append, List.nil_append]
        rw [ws_cons_ws hc hw, filter_splitWs_ws_cons hw, ws_cons_nil hc]
        simp
      | cons c2 a'' =>
        have hca : (c :: c2 :: a'') ++ w :: b = c :: c2 :: (a'' ++ w :: b) := by simp
        rw [List.cons_append] at ih
        by_cases h2 : isJsWs c2
        · rw [hca, ws_cons_ws hc h2 (a'' ++ w :: b), ws_cons_ws hc h2 a'']
          exact ih
        · have h2' : isJsWs c2 = false := by simpa using h2
          rw [hca, ws_cons_nonws hc h2' (a'' ++ w :: b), ws_cons_nonws hc h2' a'']
          simp only [List.filter_cons]
          simpa using ih
    · have hc' : isJsWs c = false := by simpa using hc
      rw [List.cons_append, nonws_cons hc' (a' ++ w :: b), nonws_cons hc' a']
      have hpos : ∀ z : List Char, decide ((c :: z : List Char) ≠ []) = true := by simp
      rw [List.filter_cons, if_pos (hpos _), List.filter_cons, if_pos (hpos _),
        List.cons_append]
      have hhead : (splitWsChars (a' ++ w :: b)).headD [] = (splitWsChars a').headD [] := by
        rw [headD_splitWsChars, headD_splitWsChars,
          takeWhile_append_stop (by simp [hw]) a' b]
      rw [hhead]
      refine congrArg (fun z => (c :: (splitWsChars a').headD []) :: z) ?_
      cases hr : splitWsChars (a' ++ w :: b) with
      | nil => exact absurd hr (splitWsChars_ne_nil _)
      | cons rh rt =>
        cases ha : splitWsChars a' with
        | nil => exact absurd ha (splitWsChars_ne_nil a')
        | cons ah at2 =>
          have hrhah : rh = ah := by
            have h1 := hhead
            rw [hr, ha] at h1
            simpa using h1
          rw [hr, ha] at ih
          subst hrhah
          simp only [List.tail_cons]
          by_cases hE : rh = []
          · subst hE
            simpa using ih
          · rw [List.filter_cons, if_pos (by simpa using hE),
              List.filter_cons, if_pos (by simpa using hE)] at ih
            have := congrArg List.tail ih
            simpa using this

theorem filter_splitWs_joinSep (parts : List (List Char)) :
    (splitWsChars (joinSep ' ' parts)).filter (fun t => t ≠ []) =
      (parts.map (fun p => (splitWsChars p).filter (fun t => t ≠ []))).flatten := by
  induction parts with
  | nil =>
    show (splitWsChars []).filter (fun t => t ≠ []) = _
    rw [splitWsChars_nil_eq]
    simp
  | cons x t ih =>
    cases t with
    | nil => simp [joinSep]
    | cons y t2 =>
      rw [joinSep_cons_cons, filter_splitWs_append (by decide) x (joinSep ' ' (y :: t2)), ih]
      simp

theorem countTokens_joinSpace (l : List String) :
    countTokens (joinSpace l) = (l.map countTokens).sum := by
  induction l with
  | nil => rfl
  | cons x t ih =>
    cases t with
    | nil =>
      show countTokens x = (List.map countTokens [x]).sum
      simp
    | cons y t2 =>
      have h1 : (joinSpace (x :: y :: t2)).data =
          x.data ++ ' ' :: (joinSpace (y :: t2)).data := rfl
      show ((splitWsChars (joinSpace (x :: y :: t2)).data).filter
        (fun t => t ≠ [])).length = _
      rw [h1, filter_splitWs_append (by decide), List.length_append]
      show countTokens x + countTokens (joinSpace (y :: t2)) = _
      rw [ih]
      simp

theorem mem_splitWs_joinSep {t : List Char} {parts : List (List Char)}
    (ht : t ∈ splitWsChars (joinSep ' ' parts)) :
    t = [] ∨ ∃ p ∈ parts, t ∈ splitWsChars p := by
  by_cases hE : t = []
  · exact Or.inl hE
  · right
    have hmem : t ∈ (splitWsChars (joinSep ' ' parts)).filter (fun t => t ≠ []) :=
      List.mem_filter.mpr ⟨ht, by simpa using hE⟩
    rw [filter_splitWs_joinSep] at hmem
    rcases List.mem_flatten.mp hmem with ⟨l, hl, htl⟩
    rcases List.mem_map.mp hl with ⟨p, hp, rfl⟩
    exact ⟨p, hp, (List.mem_filter.mp htl).1⟩

/-! ## Lemmas about CamelCase names and the token expander -/

theorem camel_chars {N : String} (hN : isCamelCase N = true) :
    ∀ c ∈ N.data, 48 ≤ c.toNat ∧ c.toNat ≤ 122 ∧ c.toNat ≠ 58 := by
  intro c hc
  cases hd : N.data with
  | nil => rw [hd] at hc; simp at hc
  | cons c0 cs =>
    unfold isCamelCase at hN
    rw [hd] at hN hc
    simp only [Bool.and_eq_true, List.all_eq_true, Bool.or_eq_true,
      decide_eq_true_eq] at hN
    rcases List.mem_cons.mp hc with rfl | hmem
    · have h1 : (65 : Nat) ≤ c.toNat := hN.1.1
      have h2 : c.toNat ≤ (90 : Nat) := hN.1.2
      omega
    · rcases hN.2 c hmem with (⟨h1, h2⟩ | ⟨h1, h2⟩) | ⟨h1, h2⟩
      · have h1' : (97 : Nat) ≤ c.toNat := h1
        have h2' : c.toNat ≤ (122 : Nat) := h2
        omega
      · have h1' : (65 : Nat) ≤ c.toNat := h1
        have h2' : c.toNat ≤ (90 : Nat) := h2
        omega
      · have h1' : (48 : Nat) ≤ c.toNat := h1
        have h2' : c.toNat ≤ (57 : Nat) := h2
        omega

theorem camel_no_colon {N : String} (hN : isCamelCase N = true) :
    ∀ c ∈ N.data, c ≠ ':' := by
  intro c hc hcol
  rcases camel_chars hN c hc with ⟨_, _, h3⟩
  rw [hcol] at h3
  exact h3 rfl

theorem camel_not_ws {N : String} (hN : isCamelCase N = true) :
    ∀ c ∈ N.data, isJsWs c = false := by
  intro c hc
  rcases camel_chars hN c hc with ⟨h1, h2, _⟩
  simp only [isJsWs, Bool.or_eq_false_iff, Bool.and_eq_false_iff,
    decide_eq_false_iff_not]
  omega

theorem camel_ne_empty {N : String} (hN : isCamelCase N = true) : N ≠ "" := by
  intro h
  rw [h] at hN
  simp [isCamelCase] at hN

theorem takeWhile_of_all {l : List Char} {q : Char → Bool}
    (h : ∀ c ∈ l, q c = true) : l.takeWhile q = l := by
  induction l with
  | nil => rfl
  | cons c cs ih =>
    rw [List.takeWhile_cons, if_pos (h c (by simp)), ih (fun d hd => h d (by simp [hd]))]

theorem splitLastColon_no_colon {cs : List Char} (h : ∀ c ∈ cs, c ≠ ':') :
    splitLastColon cs = ([], cs) := by
  unfold splitLastColon
  have hrev : cs.reverse.takeWhile notColon = cs.reverse := by
    apply takeWhile_of_all
    intro c hc
    have := h c (List.mem_reverse.mp hc)
    simp [notColon, this]
  rw [hrev]
  simp

/-- A whitespace-free string splits into the single token that it is. -/
theorem splitWs_single {s : String} (h : ∀ c ∈ s.data, isJsWs c = false) :
    splitWs s = [s] := by
  unfold splitWs
  rw [splitWsChars_all_not_ws h]
  rfl

theorem nameOf_bang_camel {N : String} (hN : isCamelCase N = true) :
    nameOf ("!" ++ N) = N := by
  have hdata : ("!" ++ N).data = '!' :: N.data := by
    rw [String.data_append]
    rfl
  unfold nameOf workingOf
  rw [hdata]
  show String.mk (splitLastColon (('!' :: N.data).tail)).2 = N
  rw [List.tail_cons, splitLastColon_no_colon (camel_no_colon hN)]

theorem vpOf_bang_camel {N : String} (hN : isCamelCase N = true) :
    vpOf ("!" ++ N) = "" := by
  have hdata : ("!" ++ N).data = '!' :: N.data := by
    rw [String.data_append]
    rfl
  unfold vpOf workingOf
  rw [hdata]
  show String.mk (splitLastColon (('!' :: N.data).tail)).1 = ""
  rw [List.tail_cons, splitLastColon_no_colon (camel_no_colon hN)]

theorem ipOf_bang (N : String) : ipOf ("!" ++ N) = ['!'] := by
  have hdata : ("!" ++ N).data = '!' :: N.data := by
    rw [String.data_append]
    rfl
  unfold ipOf
  rw [hdata]
  rfl

/-- Claim C5: expanding a token `!N` for a map key `N` against a
ResolvedAliasMap splits `N`'s resolved value on whitespace, applies the
extracted (here empty) variant prefix to each resulting token via the
VariantPrefixer, prepends `!` to each, and joins with single spaces; in
particular expanding `!Button` against `{Button: "text-sm inline-flex"}`
yields `"!text-sm !inline-flex"`. -/
theorem C5_important_token_expansion (m : AliasMap) (N v : String)
    (hN : isCamelCase N = true) (hv : alookup m N = some v) (hne : v ≠ "") :
    expandToken ("!" ++ N) m =
      joinSpace ((splitWs v).map (fun u => "!" ++ applyVariantPrefix "" u)) ∧
    expandToken "!Button" [("Button", "text-sm inline-flex")] = "!text-sm !inline-flex" := by
  refine ⟨?_, by decide⟩
  simp only [expandToken, nameOf_bang_camel hN, hv, vpOf_bang_camel hN, ipOf_bang]
  rw [if_pos ⟨hN, hne⟩]
  refine congrArg joinSpace (List.map_congr_left ?_)
  intro u _
  apply String.ext
  rw [String.data_append]

/-- Claim C5 witness: the theorem applied at `!Button` against
`{Button: "text-sm inline-flex"}`. -/
theorem C5_witness :
    isCamelCase "Button" = true ∧
    alookup [("Button", "text-sm inline-flex")] "Button" = some "text-sm inline-flex" ∧
    ("text-sm inline-flex" : String) ≠ "" ∧
    expandToken "!Button" [("Button", "text-sm inline-flex")] =
      joinSpace ((splitWs "text-sm inline-flex").map
        (fun u => "!" ++ applyVariantPrefix "" u)) :=
  ⟨by decide, by decide, by decide,
    (C5_important_token_expansion [("Button", "text-sm inline-flex")] "Button"
      "text-sm inline-flex" (by decide) (by decide) (by decide)).1⟩

/-- Claim C6: an unrecognized or non-CamelCase token is never an error: if a
token's candidate alias name fails the CamelCase pattern or is absent from
the map, `expandToken` returns the original token verbatim (in particular the
leading-hyphen form `-Button` is always returned unchanged), and the source
scanner's per-match collection adds nothing to its output set when the
matched name is not a map key. -/
theorem C6_unknown_tokens_pass_through :
    (∀ token aliases, (isCamelCase (nameOf token) = false ∨
        alookup aliases (nameOf token) = none) →
      expandToken token aliases = token) ∧
    (∀ aliases, expandToken "-Button" aliases = "-Button") ∧
    (∀ fullMatch aliases, alookup aliases (scanNameOf fullMatch) = none →
      collectForMatch aliases fullMatch = []) := by
  have h1 : ∀ token aliases, (isCamelCase (nameOf token) = false ∨
      alookup aliases (nameOf token) = none) →
      expandToken token aliases = token := by
    intro token aliases h
    cases hl : alookup aliases (nameOf token) with
    | none => simp only [expandToken, hl]
    | some v =>
      rcases h with h | h
      · simp only [expandToken, hl]
        rw [if_neg (by simp [h])]
      · rw [hl] at h
        exact absurd h (by simp)
  refine ⟨h1, fun aliases => h1 "-Button" aliases (Or.inl (by decide)), ?_⟩
  intro fullMatch aliases h
  simp only [collectForMatch, h]

/-- Claim C6 witness: the pass-through theorem applied at the non-CamelCase
token `-Button` and at a scanner match on an unknown name. -/
theorem C6_witness :
    (isCamelCase (nameOf "hover:bg-red") = false ∨
      alookup [("Button", "x")] (nameOf "hover:bg-red") = none) ∧
    expandToken "hover:bg-red" [("Button", "x")] = "hover:bg-red" ∧
    alookup [("Button", "x")] (scanNameOf "hover:Unknown") = none ∧
    collectForMatch [("Button", "x")] "hover:Unknown" = [] :=
  ⟨Or.inl (by decide),
    C6_unknown_tokens_pass_through.1 "hover:bg-red" [("Button", "x")] (Or.inl (by decide)),
    by decide,
    C6_unknown_tokens_pass_through.2.2 "hover:Unknown" [("Button", "x")] (by decide)⟩

/-- Claim C10: an alias name bound to the empty string is treated exactly
like an unknown name: `expandToken` returns the referencing token verbatim,
and the source scanner's per-match collection adds nothing. -/
theorem C10_empty_value_like_unknown :
    (∀ token aliases, alookup aliases (nameOf token) = some "" →
      expandToken token aliases = token) ∧
    (∀ fullMatch aliases, alookup aliases (scanNameOf fullMatch) = some "" →
      collectForMatch aliases fullMatch = []) := by
  constructor
  · intro token aliases h
    simp only [expandToken, h]
    rw [if_neg (by simp)]
  · intro fullMatch aliases h
    simp only [collectForMatch, h]
    rw [if_neg (by simp)]

/-- Claim C10 witness: the theorem applied at `Button` bound to the empty
string. -/
theorem C10_witness :
    alookup [("Button", "")] (nameOf "Button") = some "" ∧
    expandToken "Button" [("Button", "")] = "Button" ∧
    alookup [("Button", "")] (scanNameOf "hover:Button") = some "" ∧
    collectForMatch [("Button", "")] "hover:Button" = [] :=
  ⟨by decide,
    C10_empty_value_like_unknown.1 "Button" [("Button", "")] (by decide),
    by decide,
    C10_empty_value_like_unknown.2 "hover:Button" [("Button", "")] (by decide)⟩

/-! ## Claim C8: token counts under class-string expansion -/

theorem alookup_mem {m : AliasMap} {k v : String} (h : alookup m k = some v) :
    (k, v) ∈ m := by
  induction m with
  | nil => simp [alookup] at h
  | cons p rest ih =>
    obtain ⟨k0, v0⟩ := p
    unfold alookup at h
    by_cases hk : k0 = k
    · rw [if_pos hk] at h
      subst hk
      injection h with h
      subst h
      simp
    · rw [if_neg hk] at h
      exact List.mem_cons_of_mem _ (ih h)

theorem filter_mk_comm (L : List (List Char)) :
    (L.map String.mk).filter (fun t => t ≠ "") =
      (L.filter (fun t => t ≠ [])).map String.mk := by
  induction L with
  | nil => rfl
  | cons x t ih =>
    simp only [List.map_cons, List.filter_cons]
    by_cases hx : x = []
    · subst hx
      simpa using ih
    · have h1 : (decide ((String.mk x : String) ≠ "")) = true := by
        simp only [decide_eq_true_eq]
        intro h
        have h2 := congrArg String.data h
        rw [show ("" : String).data = [] from rfl] at h2
        exact hx h2
      rw [if_pos h1, if_pos (by simpa using hx), List.map_cons, ih]

theorem countTokens_single {x : List Char} (hne : x ≠ [])
    (hws : ∀ c ∈ x, isJsWs c = false) : countTokens (String.mk x) = 1 := by
  unfold countTokens
  rw [show (String.mk x).data = x from rfl, splitWsChars_all_not_ws hws]
  simp [hne]

theorem peelGo_subset (pv : List (List Char)) :
    ∀ n cs, ∀ c ∈ peelGo pv n cs, c ∈ cs := by
  intro n
  induction n with
  | zero => intro cs c hc; exact hc
  | succ m ih =>
    intro cs c hc
    rw [peelGo_succ] at hc
    split at hc
    · split at hc
      · exact List.mem_of_mem_drop (ih _ c hc)
      · exact hc
    · exact hc

theorem workingOf_subset (t : String) : ∀ c ∈ workingOf t, c ∈ t.data := by
  intro c hc
  unfold workingOf at hc
  split at hc
  · exact List.tail_subset _ hc
  · exact hc

theorem vpOf_subset (t : String) : ∀ c ∈ (vpOf t).data, c ∈ t.data := by
  intro c hc
  unfold vpOf splitLastColon at hc
  rw [show (String.mk ((workingOf t).take
    ((workingOf t).length - ((workingOf t).reverse.takeWhile notColon).length))).data
    = (workingOf t).take
      ((workingOf t).length - ((workingOf t).reverse.takeWhile notColon).length)
    from rfl] at hc
  exact workingOf_subset t c (List.take_subset _ _ hc)

theorem applyVariantPrefix_data_subset (vp u : String) :
    ∀ c ∈ (applyVariantPrefix vp u).data, c ∈ vp.data ∨ c ∈ u.data := by
  intro c hc
  unfold applyVariantPrefix at hc
  split at hc
  · exact Or.inr hc
  · rw [show (String.mk (vp.data ++ peelGo (splitColonChars vp.data.dropLast)
      (u.data.length + 1) u.data)).data = vp.data ++ peelGo (splitColonChars vp.data.dropLast)
      (u.data.length + 1) u.data from rfl] at hc
    rcases List.mem_append.mp hc with h | h
    · exact Or.inl h
    · exact Or.inr (peelGo_subset _ _ _ c h)

theorem applyVariantPrefix_ne_empty {vp u : String} (hu : u ≠ "") :
    applyVariantPrefix vp u ≠ "" := by
  unfold applyVariantPrefix
  by_cases hvp : vp = ""
  · rw [if_pos hvp]
    exact hu
  · rw [if_neg hvp]
    intro h
    have h2 := congrArg String.data h
    rw [show ("" : String).data = [] from rfl] at h2
    rcases List.append_eq_nil.mp h2 with ⟨h1, _⟩
    exact hvp (String.ext h1)

theorem length_le_sum_of_one_le :
    ∀ l : List Nat, (∀ x ∈ l, 1 ≤ x) → l.length ≤ l.sum := by
  intro l
  induction l with
  | nil => intro _; simp
  | cons x t ih =>
    intro h
    simp only [List.length_cons, List.sum_cons]
    have h1 := h x (by simp)
    have h2 := ih (fun y hy => h y (by simp [hy]))
    omega

/-- Each individual expanded token has at least one non-empty
whitespace-separated token, provided every map value does. -/
theorem one_le_countTokens_expandToken {m : AliasMap}
    (hm : ∀ p ∈ m, 1 ≤ countTokens p.2) {x : List Char} (hne : x ≠ [])
    (hws : ∀ c ∈ x, isJsWs c = false) :
    1 ≤ countTokens (expandToken (String.mk x) m) := by
  cases hl : alookup m (nameOf (String.mk x)) with
  | none =>
    simp only [expandToken, hl]
    rw [countTokens_single hne hws]
  | some v =>
    by_cases hcond : isCamelCase (nameOf (String.mk x)) = true ∧ v ≠ ""
    · simp only [expandToken, hl]
      rw [if_pos hcond]
      rw [countTokens_joinSpace]
      have hv1 : 1 ≤ countTokens v := hm _ (alookup_mem hl)
      have hvx : ∃ y ∈ splitWsChars v.data, y ≠ [] := by
        unfold countTokens at hv1
        rcases List.exists_mem_of_length_pos hv1 with ⟨y, hy⟩
        have := List.mem_filter.mp hy
        exact ⟨y, this.1, by simpa using this.2⟩
      rcases hvx with ⟨y, hy, hyne⟩
      set g := fun util => String.mk (ipOf (String.mk x) ++
        (applyVariantPrefix (vpOf (String.mk x)) util).data) with hg
      have hmem : countTokens (g (String.mk y)) ∈
          ((splitWs v).map g).map countTokens := by
        apply List.mem_map_of_mem
        apply List.mem_map_of_mem
        unfold splitWs
        exact List.mem_map_of_mem _ hy
      have hone : countTokens (g (String.mk y)) = 1 := by
        rw [hg]
        have hdata : (String.mk (ipOf (String.mk x) ++
            (applyVariantPrefix (vpOf (String.mk x)) (String.mk y)).data)).data =
            ipOf (String.mk x) ++
              (applyVariantPrefix (vpOf (String.mk x)) (String.mk y)).data := rfl
        apply countTokens_single
        · intro h0
          rcases List.append_eq_nil.mp h0 with ⟨hip, hap⟩
          have : applyVariantPrefix (vpOf (String.mk x)) (String.mk y) = "" :=
            String.ext hap
          refine applyVariantPrefix_ne_empty (u := String.mk y) ?_ this
          intro h
          have h2 := congrArg String.data h
          rw [show ("" : String).data = [] from rfl] at h2
          exact hyne h2
        · intro c hc
          rcases List.mem_append.mp hc with h | h
          · unfold ipOf at h
            split at h
            · simp at h
              subst h
              decide
            · simp at h
          · rcases applyVariantPrefix_data_subset _ _ c h with h | h
            · exact hws c (vpOf_subset _ c h)
            · exact mem_splitWsChars_not_ws hy c h
      rw [← hone]
      exact List.single_le_sum (fun a _ => Nat.zero_le a) _ hmem
    · simp only [expandToken, hl]
      rw [if_neg hcond, countTokens_single hne hws]

/-- Claim C8, counterexample to the claim as stated: the ResolvedAliasMap
`{Button: " "}` (which `expand` itself produces from the RawAliasMap
`{Button: " "}`) makes the class-string expander shrink the token count:
expanding `"Button"` yields `" "`, which has zero whitespace-separated
tokens while the input has one. -/
theorem C8_counterexample :
    expandE [("Button", " ")] none = .ok [("Button", " ")] ∧
    countTokens (expandClassString "Button" [("Button", " ")]) <
      countTokens "Button" :=
  ⟨rfl, by decide⟩

/-- Claim C8 as amended: for every input class string and every
ResolvedAliasMap each of whose values contains at least one non-whitespace
character (one non-empty token), the expanded class string contains at least
as many whitespace-separated tokens as the input string. -/
theorem C8_token_count (m : AliasMap) (hm : ∀ p ∈ m, 1 ≤ countTokens p.2)
    (s : String) :
    countTokens s ≤ countTokens (expandClassString s m) := by
  unfold expandClassString
  rw [countTokens_joinSpace]
  have htoks : (splitWs s).filter (fun t => t ≠ "") =
      ((splitWsChars s.data).filter (fun t => t ≠ [])).map String.mk := by
    unfold splitWs
    exact filter_mk_comm _
  have hcount : countTokens s =
      (((splitWs s).filter (fun t => t ≠ "")).map
        (fun t => expandToken t m)).length := by
    rw [htoks]
    simp [countTokens]
  rw [hcount, show (((splitWs s).filter (fun t => t ≠ "")).map
    (fun t => expandToken t m)).length =
    ((((splitWs s).filter (fun t => t ≠ "")).map
      (fun t => expandToken t m)).map countTokens).length from
    (List.length_map _ _).symm]
  apply length_le_sum_of_one_le
  intro n hn
  rcases List.mem_map.mp hn with ⟨t2, ht2, rfl⟩
  rcases List.mem_map.mp ht2 with ⟨t, ht, rfl⟩
  rw [htoks] at ht
  rcases List.mem_map.mp ht with ⟨x, hx, rfl⟩
  have hx' := List.mem_filter.mp hx
  exact one_le_countTokens_expandToken hm (by simpa using hx'.2)
    (fun c hc => mem_splitWsChars_not_ws hx'.1 c hc)

/-- Claim C8 witness: the amended theorem applied at the class string
`"x Button"` and the map `{Button: "a b"}`. -/
theorem C8_witness :
    (∀ p ∈ ([("Button", "a b")] : AliasMap), 1 ≤ countTokens p.2) ∧
    countTokens "x Button" ≤
      countTokens (expandClassString "x Button" [("Button", "a b")]) :=
  ⟨by decide, C8_token_count [("Button", "a b")] (by decide) "x Button"⟩


/-! ### Basic lemmas for the resolver -/

theorem alookup_append (a b : AliasMap) (k : String) :
    alookup (a ++ b) k =
      match alookup a k with
      | some v => some v
      | none => alookup b k := by
  induction a with
  | nil => rfl
  | cons p rest ih =>
    obtain ⟨k0, v0⟩ := p
    show (if k0 = k then some v0 else alookup (rest ++ b) k) = _
    by_cases hk : k0 = k
    · rw [if_pos hk]
      show _ = (match (if k0 = k then some v0 else alookup rest k) with
        | some v => some v | none => alookup b k)
      rw [if_pos hk]
    · rw [if_neg hk, ih]
      show _ = (match (if k0 = k then some v0 else alookup rest k) with
        | some v => some v | none => alookup b k)
      rw [if_neg hk]

theorem alookup_append_left {a : AliasMap} (b : AliasMap) {k v : String}
    (h : alookup a k = some v) : alookup (a ++ b) k = some v := by
  rw [alookup_append, h]

theorem alookup_append_right {a : AliasMap} (b : AliasMap) {k : String}
    (h : alookup a k = none) : alookup (a ++ b) k = alookup b k := by
  rw [alookup_append, h]

theorem alookup_isSome_of_mem_keys {raw : AliasMap} {k : String}
    (h : k ∈ raw.map Prod.fst) : (alookup raw k).isSome = true := by
  induction raw with
  | nil => simp at h
  | cons p rest ih =>
    obtain ⟨k0, v0⟩ := p
    show (if k0 = k then some v0 else alookup rest k).isSome = true
    by_cases hk : k0 = k
    · rw [if_pos hk]
      rfl
    · rw [if_neg hk]
      have h' : k = k0 ∨ ∃ x, (k, x) ∈ rest := by simpa using h
      rcases h' with h1 | ⟨x, hx⟩
      · exact absurd h1.symm hk
      · exact ih (List.mem_map_of_mem Prod.fst hx)

theorem mem_keys_of_alookup {raw : AliasMap} {k v : String}
    (h : alookup raw k = some v) : k ∈ raw.map Prod.fst := by
  have := alookup_mem h
  exact List.mem_map_of_mem Prod.fst this

theorem camel_of_mem_keys {raw : AliasMap}
    (hcam : ∀ p ∈ raw, isCamelCase p.1 = true) {k : String}
    (h : k ∈ raw.map Prod.fst) : isCamelCase k = true := by
  rcases List.mem_map.mp h with ⟨p, hp, rfl⟩
  exact hcam p hp

theorem alookup_none_of_not_camel {raw : AliasMap}
    (hcam : ∀ p ∈ raw, isCamelCase p.1 = true) {t : String}
    (h : isCamelCase t = false) : alookup raw t = none := by
  cases hl : alookup raw t with
  | none => rfl
  | some v =>
    have := hcam _ (alookup_mem hl)
    simp only at this
    rw [this] at h
    exact absurd h (by simp)

theorem length_filter_mono {α : Type} {p q : α → Bool}
    (h : ∀ x, q x = true → p x = true) :
    ∀ l : List α, (l.filter q).length ≤ (l.filter p).length := by
  intro l
  induction l with
  | nil => simp
  | cons x t ih =>
    rw [List.filter_cons, List.filter_cons]
    by_cases hq : q x = true
    · rw [if_pos hq, if_pos (h x hq)]
      simp only [List.length_cons]
      omega
    · rw [if_neg hq]
      by_cases hp : p x = true
      · rw [if_pos hp]
        simp only [List.length_cons]
        omega
      · rw [if_neg hp]
        exact ih

theorem length_filter_strict {α : Type} {p q : α → Bool}
    (hmono : ∀ x, q x = true → p x = true) :
    ∀ l : List α, (∃ x ∈ l, p x = true ∧ q x = false) →
      (l.filter q).length < (l.filter p).length := by
  intro l
  induction l with
  | nil => intro h; simp at h
  | cons x t ih =>
    intro ⟨w, hw, hpw, hqw⟩
    rcases List.mem_cons.mp hw with rfl | hw
    · rw [List.filter_cons, List.filter_cons, if_neg (by simp [hqw]), if_pos hpw]
      have := length_filter_mono hmono t
      simp only [List.length_cons]
      omega
    · have hrec := ih ⟨w, hw, hpw, hqw⟩
      rw [List.filter_cons, List.filter_cons]
      by_cases hq : q x = true
      · rw [if_pos hq, if_pos (hmono x hq)]
        simp only [List.length_cons]
        omega
      · rw [if_neg hq]
        by_cases hp : p x = true
        · rw [if_pos hp]
          simp only [List.length_cons]
          omega
        · rw [if_neg hp]
          exact hrec

theorem remKeys_append_lt {raw : AliasMap} {res : List String} {k : String}
    (hk : k ∈ raw.map Prod.fst) (hnk : k ∉ res) :
    remKeys raw (res ++ [k]) < remKeys raw res := by
  unfold remKeys
  apply length_filter_strict
  · intro x hx
    simp only [decide_eq_true_eq] at hx ⊢
    intro hmem
    exact hx (by simp [hmem])
  · refine ⟨k, hk, ?_, ?_⟩
    · simpa using hnk
    · simp

theorem remKeys_nil (raw : AliasMap) : remKeys raw [] = raw.length := by
  unfold remKeys
  rw [List.filter_eq_self.mpr (by intro x _; simp), List.length_map]

theorem erase_append_last {l : List String} {a : String} (h : a ∉ l) :
    (l ++ [a]).erase a = l := by
  rw [List.erase_append_right _ h, List.erase_cons_head]
  simp

/-- One unfolding of `idealVal`. -/
theorem idealVal_eq (raw : AliasMap) (merger : Option (String → String))
    (rank : String → Nat) (name : String) :
    idealVal raw merger rank name =
      match alookup raw name with
      | none => name
      | some v =>
        applyMerger merger (joinSpace ((splitWs v).map
          (fun t =>
            if isCamelCase t = true ∧ (alookup raw t).isSome = true ∧
                rank t < rank name then
              idealVal raw merger rank t
            else t))) := by
  rw [idealVal]
  cases alookup raw name with
  | none => rfl
  | some v =>
    show applyMerger merger _ = applyMerger merger _
    refine congrArg _ (congrArg _ (List.map_congr_left ?_))
    intro t _
    rw [dite_eq_ite]

theorem idealVal_nonkey {raw : AliasMap} {merger : Option (String → String)}
    {rank : String → Nat} {name : String} (h : alookup raw name = none) :
    idealVal raw merger rank name = name := by
  rw [idealVal_eq, h]

theorem idealVal_key {raw : AliasMap} {merger : Option (String → String)}
    {rank : String → Nat} {name v : String} (h : alookup raw name = some v) :
    idealVal raw merger rank name =
      applyMerger merger (joinSpace ((splitWs v).map
        (fun t =>
          if isCamelCase t = true ∧ (alookup raw t).isSome = true ∧
              rank t < rank name then
            idealVal raw merger rank t
          else t))) := by
  rw [idealVal_eq, h]

/-- Under the rank hypothesis, the branch condition inside `idealVal` at a
key collapses: the per-token map is just `idealVal` itself. -/
theorem idealVal_key_map {raw : AliasMap} {merger : Option (String → String)}
    {rank : String → Nat}
    (hcam : ∀ p ∈ raw, isCamelCase p.1 = true)
    (hrank : ∀ k t, edgeE raw k t → rank t < rank k)
    {name v : String} (h : alookup raw name = some v) :
    idealVal raw merger rank name =
      applyMerger merger (joinSpace ((splitWs v).map
        (idealVal raw merger rank))) := by
  rw [idealVal_key h]
  refine congrArg _ (congrArg _ (List.map_congr_left ?_))
  intro t ht
  by_cases hc : isCamelCase t = true
  · cases hsome : (alookup raw t).isSome with
    | true =>
      rw [if_pos ⟨hc, rfl, hrank name t ⟨v, h, hc, ht, hsome⟩⟩]
    | false =>
      rw [if_neg (by simp [hsome]), idealVal_nonkey]
      cases hl : alookup raw t with
      | none => rfl
      | some w => rw [hl] at hsome; simp at hsome
  · rw [if_neg (by simp [hc]),
      idealVal_nonkey (alookup_none_of_not_camel hcam (by simpa using hc))]

/-! ### The master lemma: on cycle-free maps the DFS computes `idealVal` -/

theorem resolveTokens_master (raw : AliasMap) (merger : Option (String → String))
    (rank : String → Nat)
    (hcam : ∀ p ∈ raw, isCamelCase p.1 = true)
    (n : Nat)
    (IH : ∀ st name, MemoOk raw merger rank st → StackFresh st →
      RankBelow raw rank st name → isCamelCase name = true →
      remKeys raw st.resolving + 1 ≤ n →
      ∃ st', resolveF raw merger n st name =
          .ok (idealVal raw merger rank name, st') ∧
        st'.resolving = st.resolving ∧ MemoOk raw merger rank st' ∧
        StackFresh st' ∧
        (∀ k v, alookup st.expanded k = some v → alookup st'.expanded k = some v) ∧
        ((alookup raw name).isSome = true →
          alookup st'.expanded name = some (idealVal raw merger rank name))) :
    ∀ toks st, MemoOk raw merger rank st → StackFresh st →
      (∀ t ∈ toks, isCamelCase t = true → (alookup raw t).isSome = true →
        ∀ r ∈ st.resolving, rank t < rank r) →
      remKeys raw st.resolving + 1 ≤ n →
      ∃ st', resolveTokens (resolveF raw merger n) toks st =
          .ok (toks.map (idealVal raw merger rank), st') ∧
        st'.resolving = st.resolving ∧ MemoOk raw merger rank st' ∧
        StackFresh st' ∧
        (∀ k v, alookup st.expanded k = some v → alookup st'.expanded k = some v) := by
  intro toks
  induction toks with
  | nil =>
    intro st h1 h2 _ _
    exact ⟨st, rfl, rfl, h1, h2, fun _ _ h => h⟩
  | cons t ts ihts =>
    intro st hmemo hfresh hT hfuel
    by_cases hct : isCamelCase t = true
    · have hIH := IH st t hmemo hfresh
        (fun hs r hr => hT t (by simp) hct hs r hr) hct hfuel
      rcases hIH with ⟨st1, heq1, hres1, hmemo1, hfresh1, hext1, _⟩
      have hts := ihts st1 hmemo1 hfresh1
        (fun t' ht' hc hs r hr => hT t' (by simp [ht']) hc hs r (by rw [← hres1]; exact hr))
        (by rw [hres1]; exact hfuel)
      rcases hts with ⟨st2, heq2, hres2, hmemo2, hfresh2, hext2⟩
      refine ⟨st2, ?_, by rw [hres2, hres1], hmemo2, hfresh2,
        fun k v h => hext2 k v (hext1 k v h)⟩
      simp only [resolveTokens, if_pos hct, heq1, heq2, List.map_cons]
    · have hts := ihts st hmemo hfresh (fun t' ht' => hT t' (by simp [ht'])) hfuel
      rcases hts with ⟨st2, heq2, hres2, hmemo2, hfresh2, hext2⟩
      refine ⟨st2, ?_, hres2, hmemo2, hfresh2, hext2⟩
      have hid : idealVal raw merger rank t = t :=
        idealVal_nonkey (alookup_none_of_not_camel hcam (by simpa using hct))
      simp only [resolveTokens, if_neg hct, heq2, List.map_cons, hid]

theorem resolveF_master (raw : AliasMap) (merger : Option (String → String))
    (rank : String → Nat)
    (hcam : ∀ p ∈ raw, isCamelCase p.1 = true)
    (hrank : ∀ k t, edgeE raw k t → rank t < rank k) :
    ∀ n st name, MemoOk raw merger rank st → StackFresh st →
      RankBelow raw rank st name → isCamelCase name = true →
      remKeys raw st.resolving + 1 ≤ n →
      ∃ st', resolveF raw merger n st name =
          .ok (idealVal raw merger rank name, st') ∧
        st'.resolving = st.resolving ∧ MemoOk raw merger rank st' ∧
        StackFresh st' ∧
        (∀ k v, alookup st.expanded k = some v → alookup st'.expanded k = some v) ∧
        ((alookup raw name).isSome = true →
          alookup st'.expanded name = some (idealVal raw merger rank name)) := by
  intro n
  induction n with
  | zero =>
    intro st name _ _ _ _ hfuel
    omega
  | succ n ih =>
    intro st name hmemo hfresh hprec hcamname hfuel
    have hstep : resolveF raw merger (n + 1) st name =
        resolveStep raw merger (resolveF raw merger n) st name := rfl
    rw [hstep]
    cases hmem : alookup st.expanded name with
    | some v =>
      have hv := hmemo _ (alookup_mem hmem)
      have hv2 : v = idealVal raw merger rank name := hv.2
      refine ⟨st, ?_, rfl, hmemo, hfresh, fun _ _ h => h, fun _ => ?_⟩
      · simp only [resolveStep, hmem]
        rw [hv2]
      · rw [hmem, hv2]
    | none =>
      cases hraw : alookup raw name with
      | none =>
        refine ⟨st, ?_, rfl, hmemo, hfresh, fun _ _ h => h, fun hs => ?_⟩
        · simp only [resolveStep, hmem, hraw, idealVal_nonkey hraw]
        · simp at hs
      | some v =>
        have hsome : (alookup raw name).isSome = true := by rw [hraw]; rfl
        have hnotres : name ∉ st.resolving := by
          intro hin
          have := hprec hsome name hin
          omega
        have hmemo1 : MemoOk raw merger rank
            ⟨st.expanded, st.resolving ++ [name]⟩ := hmemo
        have hfresh1 : StackFresh ⟨st.expanded, st.resolving ++ [name]⟩ := by
          intro k hk
          rcases List.mem_append.mp hk with hk | hk
          · exact hfresh k hk
          · have hkn : k = name := by simpa using hk
            rw [hkn]
            exact hmem
        have hfuel1 : remKeys raw (st.resolving ++ [name]) + 1 ≤ n := by
          have hlt := remKeys_append_lt (mem_keys_of_alookup hraw) hnotres
          omega
        have hT : ∀ t ∈ splitWs v, isCamelCase t = true →
            (alookup raw t).isSome = true →
            ∀ r ∈ (st.resolving ++ [name]), rank t < rank r := by
          intro t ht hc hs r hr
          have hedge : rank t < rank name := hrank name t ⟨v, hraw, hc, ht, hs⟩
          rcases List.mem_append.mp hr with hr | hr
          · exact lt_trans hedge (hprec hsome r hr)
          · have hrn : r = name := by simpa using hr
            rw [hrn]
            exact hedge
        have htok := resolveTokens_master raw merger rank hcam n ih
          (splitWs v) ⟨st.expanded, st.resolving ++ [name]⟩ hmemo1 hfresh1 hT hfuel1
        rcases htok with ⟨st2, heq2, hres2, hmemo2, hfresh2, hext2⟩
        have hRES : applyMerger merger (joinSpace
            ((splitWs v).map (idealVal raw merger rank))) =
            idealVal raw merger rank name :=
          (idealVal_key_map hcam hrank hraw).symm
        have hfreshname : alookup st2.expanded name = none := by
          apply hfresh2
          rw [hres2]
          simp
        refine ⟨⟨st2.expanded ++ [(name, idealVal raw merger rank name)],
          st2.resolving.erase name⟩, ?_, ?_, ?_, ?_, ?_, ?_⟩
        · simp only [resolveStep, hmem, hraw, if_neg hnotres, heq2, hRES]
        · rw [hres2]
          exact erase_append_last hnotres
        · intro p hp
          rcases List.mem_append.mp hp with hp | hp
          · exact hmemo2 p hp
          · have hpn : p = (name, idealVal raw merger rank name) := by simpa using hp
            rw [hpn]
            exact ⟨hsome, rfl⟩
        · intro k hk
          rw [hres2, erase_append_last hnotres] at hk
          have hkn : k ≠ name := fun h => hnotres (h ▸ hk)
          rw [alookup_append_right _ (hfresh2 k (by rw [hres2]; simp [hk]))]
          show (if name = k then _ else _) = _
          rw [if_neg (fun h => hkn h.symm)]
          rfl
        · intro k w h
          exact alookup_append_left _ (hext2 k w h)
        · intro _
          rw [alookup_append_right _ hfreshname]
          show (if name = name then _ else _) = _
          rw [if_pos rfl]

theorem runKeysF_master (raw : AliasMap) (merger : Option (String → String))
    (rank : String → Nat)
    (hcam : ∀ p ∈ raw, isCamelCase p.1 = true)
    (hrank : ∀ k t, edgeE raw k t → rank t < rank k)
    (fuel : Nat) (hfuel : raw.length + 1 ≤ fuel) :
    ∀ ks st, MemoOk raw merger rank st → StackFresh st → st.resolving = [] →
      (∀ k ∈ ks, k ∈ raw.map Prod.fst) →
      ∃ st', runKeysF raw merger fuel ks st = .ok st' ∧ st'.resolving = [] ∧
        MemoOk raw merger rank st' ∧ StackFresh st' ∧
        (∀ k v, alookup st.expanded k = some v → alookup st'.expanded k = some v) ∧
        (∀ k ∈ ks, alookup st'.expanded k = some (idealVal raw merger rank k)) := by
  intro ks
  induction ks with
  | nil =>
    intro st h1 h2 h3 _
    exact ⟨st, rfl, h3, h1, h2, fun _ _ h => h, by simp⟩
  | cons k ks ih =>
    intro st hmemo hfresh hres hks
    have hkk : k ∈ raw.map Prod.fst := hks k (by simp)
    have hfuelst : remKeys raw st.resolving + 1 ≤ fuel := by
      rw [hres, remKeys_nil]
      omega
    have hm := resolveF_master raw merger rank hcam hrank fuel st k hmemo hfresh
      (fun _ r hr => by rw [hres] at hr; simp at hr)
      (camel_of_mem_keys hcam hkk) hfuelst
    rcases hm with ⟨st1, heq1, hres1, hmemo1, hfresh1, hext1, hlast1⟩
    have hres1' : st1.resolving = [] := by rw [hres1, hres]
    have hrec := ih st1 hmemo1 hfresh1 hres1' (fun k' h => hks k' (by simp [h]))
    rcases hrec with ⟨st', heq', hres', hmemo', hfresh', hext', hall'⟩
    refine ⟨st', ?_, hres', hmemo', hfresh',
      fun k' v h => hext' k' v (hext1 k' v h), ?_⟩
    · simp only [runKeysF, heq1, heq']
    · intro k' hk'
      rcases List.mem_cons.mp hk' with rfl | hk'
      · exact hext' k' _ (hlast1 (alookup_isSome_of_mem_keys hkk))
      · exact hall' k' hk'

theorem mem_splitWs_joinSpace {t : String} {parts : List String}
    (ht : t ∈ splitWs (joinSpace parts)) :
    t = "" ∨ ∃ q ∈ parts, t ∈ splitWs q := by
  unfold splitWs at ht
  rcases List.mem_map.mp ht with ⟨x, hx, rfl⟩
  rw [show (joinSpace parts).data = joinSep ' ' (parts.map String.data) from rfl] at hx
  rcases mem_splitWs_joinSep hx with rfl | ⟨p, hp, hxp⟩
  · exact Or.inl rfl
  · right
    rcases List.mem_map.mp hp with ⟨q, hq, rfl⟩
    exact ⟨q, hq, List.mem_map_of_mem _ hxp⟩

theorem mem_splitWs_self {tok v : String} (h : tok ∈ splitWs v) :
    splitWs tok = [tok] := by
  unfold splitWs at h
  rcases List.mem_map.mp h with ⟨y, hy, rfl⟩
  exact splitWs_single (fun c hc => mem_splitWsChars_not_ws hy c hc)

/-- On a ranked (cycle-free) map, no token of any `idealVal` value of a key
is itself a key (merger absent). -/
theorem idealVal_good (raw : AliasMap) (rank : String → Nat)
    (hcam : ∀ p ∈ raw, isCamelCase p.1 = true)
    (hrank : ∀ k t, edgeE raw k t → rank t < rank k) :
    ∀ N name, rank name < N → (alookup raw name).isSome = true →
      ∀ t ∈ splitWs (idealVal raw none rank name), alookup raw t = none := by
  intro N
  induction N with
  | zero =>
    intro name h
    omega
  | succ M ihM =>
    intro name hrk hsome t ht
    cases hraw : alookup raw name with
    | none => rw [hraw] at hsome; simp at hsome
    | some v =>
      rw [idealVal_key_map hcam hrank hraw] at ht
      rw [show applyMerger none (joinSpace ((splitWs v).map (idealVal raw none rank)))
        = joinSpace ((splitWs v).map (idealVal raw none rank)) from rfl] at ht
      rcases mem_splitWs_joinSpace ht with rfl | ⟨q, hq, htq⟩
      · exact alookup_none_of_not_camel hcam (by decide)
      · rcases List.mem_map.mp hq with ⟨tok, htok, rfl⟩
        cases hsome2 : (alookup raw tok).isSome with
        | true =>
          have hcamtok : isCamelCase tok = true :=
            camel_of_mem_keys hcam (by
              cases hr : alookup raw tok with
              | none => rw [hr] at hsome2; simp at hsome2
              | some u => exact mem_keys_of_alookup hr)
          have hedge : rank tok < rank name :=
            hrank name tok ⟨v, hraw, hcamtok, htok, hsome2⟩
          exact ihM tok (by omega) hsome2 t htq
        | false =>
          have hnone : alookup raw tok = none := by
            cases hr : alookup raw tok with
            | none => rfl
            | some u => rw [hr] at hsome2; simp at hsome2
          rw [idealVal_nonkey hnone, mem_splitWs_self htok] at htq
          have : t = tok := by simpa using htq
          rw [this]
          exact hnone

/-- Claim C1: for every cycle-free RawAliasMap (cycle-freedom expressed by a
rank strictly decreasing along the alias-reference relation `edgeE`, with
CamelCase keys as the RawAliasMap type requires), `expand` terminates with a
ResolvedAliasMap in which no whitespace-separated token of any value is a key
of the input map. -/
theorem C1_cycle_free_expand (raw : AliasMap) (rank : String → Nat)
    (hcam : ∀ p ∈ raw, isCamelCase p.1 = true)
    (hrank : ∀ k t, edgeE raw k t → rank t < rank k) :
    ∃ m, expandE raw none = .ok m ∧
      ∀ p ∈ m, ∀ t ∈ splitWs p.2, alookup raw t = none := by
  have hrun := runKeysF_master raw none rank hcam hrank (raw.length + 1)
    (le_refl _) (raw.map Prod.fst) ⟨[], []⟩
    (by intro p hp; simp at hp) (by intro k hk; simp at hk) rfl (fun k h => h)
  rcases hrun with ⟨st', heq, _, hmemo', _, _, _⟩
  refine ⟨st'.expanded, ?_, ?_⟩
  · unfold expandE expandEOrder
    rw [heq]
  · intro p hp t ht
    have hpm := hmemo' p hp
    rw [hpm.2] at ht
    exact idealVal_good raw rank hcam hrank (rank p.1 + 1) p.1 (by omega) hpm.1 t ht

/-- The two-alias example map used by the C1 and C9 witnesses. -/
theorem exampleRaw_camel :
    ∀ p ∈ ([("Base", "text-sm"), ("Button", "Base inline-flex")] : AliasMap),
      isCamelCase p.1 = true := by decide

/-- The example map's only alias reference is Button → Base, so the rank
`Button ↦ 1, _ ↦ 0` decreases along every edge. -/
theorem exampleRaw_rank :
    ∀ k t, edgeE [("Base", "text-sm"), ("Button", "Base inline-flex")] k t →
      (if t = "Button" then 1 else 0) < (if k = "Button" then 1 else 0) := by
  intro k t ⟨v, hk, hct, hmem, hsome⟩
  unfold alookup at hk
  by_cases h1 : "Base" = k
  · rw [if_pos h1] at hk
    injection hk with hk
    subst hk
    rw [show splitWs "text-sm" = ["text-sm"] from by decide] at hmem
    have ht : t = "text-sm" := by simpa using hmem
    rw [ht] at hsome
    exact absurd hsome (by decide)
  · rw [if_neg h1] at hk
    unfold alookup at hk
    by_cases h2 : "Button" = k
    · rw [if_pos h2] at hk
      injection hk with hk
      subst hk
      subst h2
      rw [show splitWs "Base inline-flex" = ["Base", "inline-flex"] from by decide]
        at hmem
      rcases (by simpa using hmem : t = "Base" ∨ t = "inline-flex") with rfl | rfl
      · decide
      · exact absurd hsome (by decide)
    · rw [if_neg h2] at hk
      exact absurd hk (by simp [alookup])

/-- Claim C1 witness: the theorem applied at the cycle-free map
`{Base: "text-sm", Button: "Base inline-flex"}` with an explicit rank. -/
theorem C1_witness :
    (∀ p ∈ ([("Base", "text-sm"), ("Button", "Base inline-flex")] : AliasMap),
      isCamelCase p.1 = true) ∧
    (∀ k t, edgeE [("Base", "text-sm"), ("Button", "Base inline-flex")] k t →
      (if t = "Button" then 1 else 0) < (if k = "Button" then 1 else 0)) ∧
    (∃ m, expandE [("Base", "text-sm"), ("Button", "Base inline-flex")] none = .ok m ∧
      ∀ p ∈ m, ∀ t ∈ splitWs p.2,
        alookup [("Base", "text-sm"), ("Button", "Base inline-flex")] t = none) :=
  ⟨exampleRaw_camel, exampleRaw_rank,
    C1_cycle_free_expand _ (fun s => if s = "Button" then 1 else 0)
      exampleRaw_camel exampleRaw_rank⟩

/-- Claim C9: resolution is deterministic: for every RawAliasMap (CamelCase
keys, cycle-free via a rank) and pure MergeFn, running the driver loop over
any permutation of the key iteration order succeeds and produces a
ResolvedAliasMap with exactly the same key-value mapping as the
`Object.keys` order; since `expand` is a pure function of its inputs, two
runs on the same RawAliasMap and MergeFn a fortiori produce equal maps. -/
theorem C9_expand_deterministic (raw : AliasMap) (merger : Option (String → String))
    (rank : String → Nat)
    (hcam : ∀ p ∈ raw, isCamelCase p.1 = true)
    (hrank : ∀ k t, edgeE raw k t → rank t < rank k)
    (order : List String) (hperm : order.Perm (raw.map Prod.fst)) :
    ∃ m1 m2, expandEOrder raw merger order = .ok m1 ∧
      expandE raw merger = .ok m2 ∧ ∀ k, alookup m1 k = alookup m2 k := by
  have h1 := runKeysF_master raw merger rank hcam hrank (raw.length + 1)
    (le_refl _) order ⟨[], []⟩
    (by intro p hp; simp at hp) (by intro k hk; simp at hk) rfl
    (fun k hk => hperm.mem_iff.mp hk)
  have h2 := runKeysF_master raw merger rank hcam hrank (raw.length + 1)
    (le_refl _) (raw.map Prod.fst) ⟨[], []⟩
    (by intro p hp; simp at hp) (by intro k hk; simp at hk) rfl (fun k h => h)
  rcases h1 with ⟨st1, heq1, _, hmemo1, _, _, hall1⟩
  rcases h2 with ⟨st2, heq2, _, hmemo2, _, _, hall2⟩
  refine ⟨st1.expanded, st2.expanded, ?_, ?_, ?_⟩
  · unfold expandEOrder
    rw [heq1]
  · unfold expandE expandEOrder
    rw [heq2]
  · intro k
    by_cases hk : k ∈ raw.map Prod.fst
    · rw [hall1 k (hperm.mem_iff.mpr hk), hall2 k hk]
    · have f : ∀ st' : ResolveState, MemoOk raw merger rank st' →
          alookup st'.expanded k = none := by
        intro st' hm
        cases hl : alookup st'.expanded k with
        | none => rfl
        | some w =>
          have hks := (hm _ (alookup_mem hl)).1
          have hk2 : k ∈ raw.map Prod.fst := by
            cases hr : alookup raw k with
            | none => rw [hr] at hks; simp at hks
            | some u => exact mem_keys_of_alookup hr
          exact absurd hk2 hk
      rw [f _ hmemo1, f _ hmemo2]

/-- Claim C9 witness: the determinism theorem applied at the example map with
the reversed iteration order. -/
theorem C9_witness :
    (["Button", "Base"].Perm
      (([("Base", "text-sm"), ("Button", "Base inline-flex")] : AliasMap).map
        Prod.fst)) ∧
    (∃ m1 m2, expandEOrder [("Base", "text-sm"), ("Button", "Base inline-flex")]
        none ["Button", "Base"] = .ok m1 ∧
      expandE [("Base", "text-sm"), ("Button", "Base inline-flex")] none = .ok m2 ∧
      ∀ k, alookup m1 k = alookup m2 k) :=
  ⟨by decide,
    C9_expand_deterministic _ none (fun s => if s = "Button" then 1 else 0)
      exampleRaw_camel exampleRaw_rank ["Button", "Base"] (by decide)⟩

/-! ### Circular-dependency detection (claim C2)

`Safe raw k` says no cycle of the alias-reference relation is reachable from
`k`; the resolver is proved to establish it for every name it successfully
resolves, so a reachable cycle forces the thrown `CircularDependencyError`.
The fuel lemmas show the fuel `expandE` supplies is never exhausted, so the
only possible error is the circular one. -/


theorem safe_of_succ {raw : AliasMap} {name : String}
    (hsucc : ∀ t, edgeE raw name t → Safe raw t) : Safe raw name := by
  intro u hu hcyc
  rcases hu.cases_head with rfl | ⟨t, hnt, htu⟩
  · rcases Relation.TransGen.head'_iff.mp hcyc with ⟨t, hnt, htn⟩
    exact hsucc t hnt _ htn hcyc
  · exact hsucc t hnt u htu hcyc

theorem resolveTokens_safe (raw : AliasMap) (merger : Option (String → String))
    (n : Nat)
    (IH : ∀ st name v st', MemoSafe raw st →
      resolveF raw merger n st name = .ok (v, st') →
      MemoSafe raw st' ∧ ((alookup raw name).isSome = true → Safe raw name)) :
    ∀ toks st vs st', MemoSafe raw st →
      resolveTokens (resolveF raw merger n) toks st = .ok (vs, st') →
      MemoSafe raw st' ∧
        ∀ t ∈ toks, isCamelCase t = true → (alookup raw t).isSome = true →
          Safe raw t := by
  intro toks
  induction toks with
  | nil =>
    intro st vs st' hms heq
    have heq' : (Except.ok (([] : List String), st) :
        Except ExpandErr (List String × ResolveState)) = .ok (vs, st') := heq
    injection Except.ok.inj heq' with _ hb
    rw [← hb]
    exact ⟨hms, by simp⟩
  | cons t ts ihts =>
    intro st vs st' hms heq
    by_cases hct : isCamelCase t = true
    · cases h1 : resolveF raw merger n st t with
      | error e =>
        have hstep : resolveTokens (resolveF raw merger n) (t :: ts) st =
            .error e := by
          simp only [resolveTokens, if_pos hct, h1]
        rw [hstep] at heq
        exact absurd heq (by simp)
      | ok p =>
        obtain ⟨v1, st1⟩ := p
        have hIH := IH st t v1 st1 hms h1
        cases h2 : resolveTokens (resolveF raw merger n) ts st1 with
        | error e =>
          have hstep : resolveTokens (resolveF raw merger n) (t :: ts) st =
              .error e := by
            simp only [resolveTokens, if_pos hct, h1, h2]
          rw [hstep] at heq
          exact absurd heq (by simp)
        | ok q =>
          obtain ⟨vs2, st2⟩ := q
          have hstep : resolveTokens (resolveF raw merger n) (t :: ts) st =
              .ok (v1 :: vs2, st2) := by
            simp only [resolveTokens, if_pos hct, h1, h2]
          rw [hstep] at heq
          injection Except.ok.inj heq with _ hb
          rw [← hb]
          have hrec := ihts st1 vs2 st2 hIH.1 h2
          refine ⟨hrec.1, ?_⟩
          intro t' ht' hc hs
          rcases List.mem_cons.mp ht' with rfl | ht'
          · exact hIH.2 hs
          · exact hrec.2 t' ht' hc hs
    · cases h2 : resolveTokens (resolveF raw merger n) ts st with
      | error e =>
        have hstep : resolveTokens (resolveF raw merger n) (t :: ts) st =
            .error e := by
          simp only [resolveTokens, if_neg hct, h2]
        rw [hstep] at heq
        exact absurd heq (by simp)
      | ok q =>
        obtain ⟨vs2, st2⟩ := q
        have hstep : resolveTokens (resolveF raw merger n) (t :: ts) st =
            .ok (t :: vs2, st2) := by
          simp only [resolveTokens, if_neg hct, h2]
        rw [hstep] at heq
        injection Except.ok.inj heq with _ hb
        rw [← hb]
        have hrec := ihts st vs2 st2 hms h2
        refine ⟨hrec.1, ?_⟩
        intro t' ht' hc hs
        rcases List.mem_cons.mp ht' with rfl | ht'
        · exact absurd hc hct
        · exact hrec.2 t' ht' hc hs

theorem resolveF_safe (raw : AliasMap) (merger : Option (String → String)) :
    ∀ n st name v st', MemoSafe raw st →
      resolveF raw merger n st name = .ok (v, st') →
      MemoSafe raw st' ∧ ((alookup raw name).isSome = true → Safe raw name) := by
  intro n
  induction n with
  | zero =>
    intro st name v st' _ heq
    simp [resolveF] at heq
  | succ n ih =>
    intro st name v st' hms heq
    have hstep : resolveF raw merger (n + 1) st name =
        resolveStep raw merger (resolveF raw merger n) st name := rfl
    rw [hstep] at heq
    unfold resolveStep at heq
    cases hmem : alookup st.expanded name with
    | some w =>
      rw [hmem] at heq
      have heq' : (Except.ok (w, st) :
          Except ExpandErr (String × ResolveState)) = .ok (v, st') := heq
      injection Except.ok.inj heq' with _ hb
      rw [← hb]
      exact ⟨hms, fun _ => hms _ (alookup_mem hmem)⟩
    | none =>
      rw [hmem] at heq
      cases hraw : alookup raw name with
      | none =>
        rw [hraw] at heq
        have heq' : (Except.ok (name, st) :
            Except ExpandErr (String × ResolveState)) = .ok (v, st') := heq
        injection Except.ok.inj heq' with _ hb
        rw [← hb]
        refine ⟨hms, fun hs => ?_⟩
        simp at hs
      | some utilities =>
        rw [hraw] at heq
        have heq1 : (if name ∈ st.resolving then
              (Except.error (ExpandErr.circular (cycleMsg st.resolving name)) :
                Except ExpandErr (String × ResolveState))
            else
              match resolveTokens (resolveF raw merger n) (splitWs utilities)
                  ⟨st.expanded, st.resolving ++ [name]⟩ with
              | .error e => .error e
              | .ok (resolvedTokens, st2) =>
                .ok (applyMerger merger (joinSpace resolvedTokens),
                  ⟨st2.expanded ++
                      [(name, applyMerger merger (joinSpace resolvedTokens))],
                    st2.resolving.erase name⟩)) = .ok (v, st') := heq
        by_cases hres : name ∈ st.resolving
        · rw [if_pos hres] at heq1
          exact absurd heq1 (by simp)
        · rw [if_neg hres] at heq1
          cases htok : resolveTokens (resolveF raw merger n) (splitWs utilities)
              ⟨st.expanded, st.resolving ++ [name]⟩ with
          | error e =>
            rw [htok] at heq1
            have heq' : (Except.error e :
                Except ExpandErr (String × ResolveState)) = .ok (v, st') := heq1
            exact absurd heq' (by simp)
          | ok q =>
            obtain ⟨ts, st2⟩ := q
            rw [htok] at heq1
            have heq' : (Except.ok (applyMerger merger (joinSpace ts),
                (⟨st2.expanded ++ [(name, applyMerger merger (joinSpace ts))],
                  st2.resolving.erase name⟩ : ResolveState)) :
                Except ExpandErr (String × ResolveState)) = .ok (v, st') := heq1
            injection Except.ok.inj heq' with _ hb
            rw [← hb]
            have hsub := resolveTokens_safe raw merger n ih (splitWs utilities)
              ⟨st.expanded, st.resolving ++ [name]⟩ ts st2 hms htok
            have hsafename : Safe raw name := by
              apply safe_of_succ
              intro t2 ht2
              obtain ⟨w, hw, hct2, hmem2, hs2⟩ := ht2
              rw [hraw] at hw
              injection hw with hw
              subst hw
              exact hsub.2 t2 hmem2 hct2 hs2
            refine ⟨?_, fun _ => hsafename⟩
            intro p hp
            rcases List.mem_append.mp hp with hp | hp
            · exact hsub.1 p hp
            · have hp2 : p = (name, applyMerger merger (joinSpace ts)) := by
                simpa using hp
              rw [hp2]
              exact hsafename

theorem runKeysF_safe (raw : AliasMap) (merger : Option (String → String))
    (fuel : Nat) :
    ∀ ks st st', MemoSafe raw st →
      runKeysF raw merger fuel ks st = .ok st' →
      ∀ k ∈ ks, (alookup raw k).isSome = true → Safe raw k := by
  intro ks
  induction ks with
  | nil =>
    intro st st' _ _ k hk
    simp at hk
  | cons k0 ks ih =>
    intro st st' hms heq k hk hs
    cases h1 : resolveF raw merger fuel st k0 with
    | error e =>
      have hstep : runKeysF raw merger fuel (k0 :: ks) st = .error e := by
        simp only [runKeysF, h1]
      rw [hstep] at heq
      exact absurd heq (by simp)
    | ok p =>
      obtain ⟨v1, st1⟩ := p
      have hstep : runKeysF raw merger fuel (k0 :: ks) st =
          runKeysF raw merger fuel ks st1 := by
        simp only [runKeysF, h1]
      rw [hstep] at heq
      have hF := resolveF_safe raw merger fuel st k0 v1 st1 hms h1
      rcases List.mem_cons.mp hk with rfl | hk'
      · exact hF.2 hs
      · exact ih st1 st' hF.1 heq k hk' hs

theorem expandE_cycle_not_ok (raw : AliasMap) (merger : Option (String → String))
    (hcyc : ∃ k, Relation.TransGen (edgeE raw) k k) :
    ∀ m, expandE raw merger ≠ .ok m := by
  obtain ⟨k, hk⟩ := hcyc
  obtain ⟨t, het, _⟩ := Relation.TransGen.head'_iff.mp hk
  obtain ⟨w, hw, _, _, _⟩ := het
  intro m hok
  unfold expandE expandEOrder at hok
  cases hrun : runKeysF raw merger (raw.length + 1) (raw.map Prod.fst) ⟨[], []⟩ with
  | error e =>
    rw [hrun] at hok
    have h' : (Except.error e : Except ExpandErr AliasMap) = .ok m := hok
    exact absurd h' (by simp)
  | ok st' =>
    have hsafe := runKeysF_safe raw merger (raw.length + 1) (raw.map Prod.fst)
      ⟨[], []⟩ st' (by intro p hp; simp at hp) hrun k
      (mem_keys_of_alookup hw) (by rw [hw]; rfl)
    exact hsafe k Relation.ReflTransGen.refl hk

theorem remKeys_le (raw : AliasMap) (res : List String) :
    remKeys raw res ≤ raw.length := by
  unfold remKeys
  calc ((raw.map Prod.fst).filter (fun k => decide (k ∉ res))).length
      ≤ (raw.map Prod.fst).length := List.length_filter_le _ _
    _ = raw.length := List.length_map _ _

theorem resolveTokens_fuel (raw : AliasMap) (merger : Option (String → String))
    (n : Nat)
    (IH : ∀ st name, remKeys raw st.resolving + 1 ≤ n →
      resolveF raw merger n st name ≠ .error .fuel ∧
      ∀ v st', resolveF raw merger n st name = .ok (v, st') →
        st'.resolving = st.resolving) :
    ∀ toks st, remKeys raw st.resolving + 1 ≤ n →
      resolveTokens (resolveF raw merger n) toks st ≠ .error .fuel ∧
      ∀ vs st', resolveTokens (resolveF raw merger n) toks st = .ok (vs, st') →
        st'.resolving = st.resolving := by
  intro toks
  induction toks with
  | nil =>
    intro st _
    refine ⟨fun h => ?_, fun vs st' h => ?_⟩
    · have h' : (Except.ok (([] : List String), st) :
          Except ExpandErr (List String × ResolveState)) = .error .fuel := h
      exact absurd h' (by simp)
    · have h' : (Except.ok (([] : List String), st) :
          Except ExpandErr (List String × ResolveState)) = .ok (vs, st') := h
      injection Except.ok.inj h' with _ hb
      rw [← hb]
  | cons t ts ihts =>
    intro st hfuel
    by_cases hct : isCamelCase t = true
    · have hIH := IH st t hfuel
      cases h1 : resolveF raw merger n st t with
      | error e =>
        have hstep : resolveTokens (resolveF raw merger n) (t :: ts) st =
            .error e := by
          simp only [resolveTokens, if_pos hct, h1]
        have hef : e ≠ .fuel := fun he => hIH.1 (he ▸ h1)
        refine ⟨fun h => ?_, fun vs st' h => ?_⟩
        · rw [hstep] at h
          injection h with h2
          exact hef h2
        · rw [hstep] at h
          exact absurd h (by simp)
      | ok p =>
        obtain ⟨v1, st1⟩ := p
        have hres1 : st1.resolving = st.resolving := hIH.2 v1 st1 h1
        have hfuel1 : remKeys raw st1.resolving + 1 ≤ n := by
          rw [hres1]
          exact hfuel
        have hrec := ihts st1 hfuel1
        cases h2 : resolveTokens (resolveF raw merger n) ts st1 with
        | error e =>
          have hstep : resolveTokens (resolveF raw merger n) (t :: ts) st =
              .error e := by
            simp only [resolveTokens, if_pos hct, h1, h2]
          have hef : e ≠ .fuel := fun he => hrec.1 (he ▸ h2)
          refine ⟨fun h => ?_, fun vs st' h => ?_⟩
          · rw [hstep] at h
            injection h with h3
            exact hef h3
          · rw [hstep] at h
            exact absurd h (by simp)
        | ok q =>
          obtain ⟨vs2, st2⟩ := q
          have hstep : resolveTokens (resolveF raw merger n) (t :: ts) st =
              .ok (v1 :: vs2, st2) := by
            simp only [resolveTokens, if_pos hct, h1, h2]
          refine ⟨fun h => ?_, fun vs st' h => ?_⟩
          · rw [hstep] at h
            exact absurd h (by simp)
          · rw [hstep] at h
            injection Except.ok.inj h with _ hb
            rw [← hb, hrec.2 vs2 st2 h2, hres1]
    · have hrec := ihts st hfuel
      cases h2 : resolveTokens (resolveF raw merger n) ts st with
      | error e =>
        have hstep : resolveTokens (resolveF raw merger n) (t :: ts) st =
            .error e := by
          simp only [resolveTokens, if_neg hct, h2]
        have hef : e ≠ .fuel := fun he => hrec.1 (he ▸ h2)
        refine ⟨fun h => ?_, fun vs st' h => ?_⟩
        · rw [hstep] at h
          injection h with h3
          exact hef h3
        · rw [hstep] at h
          exact absurd h (by simp)
      | ok q =>
        obtain ⟨vs2, st2⟩ := q
        have hstep : resolveTokens (resolveF raw merger n) (t :: ts) st =
            .ok (t :: vs2, st2) := by
          simp only [resolveTokens, if_neg hct, h2]
        refine ⟨fun h => ?_, fun vs st' h => ?_⟩
        · rw [hstep] at h
          exact absurd h (by simp)
        · rw [hstep] at h
          injection Except.ok.inj h with _ hb
          rw [← hb, hrec.2 vs2 st2 h2]

theorem resolveF_fuel (raw : AliasMap) (merger : Option (String → String)) :
    ∀ n st name, remKeys raw st.resolving + 1 ≤ n →
      resolveF raw merger n st name ≠ .error .fuel ∧
      ∀ v st', resolveF raw merger n st name = .ok (v, st') →
        st'.resolving = st.resolving := by
  intro n
  induction n with
  | zero =>
    intro st name hf
    omega
  | succ n ih =>
    intro st name hfuel
    have hstep0 : resolveF raw merger (n + 1) st name =
        resolveStep raw merger (resolveF raw merger n) st name := rfl
    cases hmem : alookup st.expanded name with
    | some w =>
      have hstep : resolveF raw merger (n + 1) st name = .ok (w, st) := by
        rw [hstep0]
        simp only [resolveStep, hmem]
      refine ⟨fun h => ?_, fun v st' h => ?_⟩
      · rw [hstep] at h
        exact absurd h (by simp)
      · rw [hstep] at h
        injection Except.ok.inj h with _ hb
        rw [← hb]
    | none =>
      cases hraw : alookup raw name with
      | none =>
        have hstep : resolveF raw merger (n + 1) st name = .ok (name, st) := by
          rw [hstep0]
          simp only [resolveStep, hmem, hraw]
        refine ⟨fun h => ?_, fun v st' h => ?_⟩
        · rw [hstep] at h
          exact absurd h (by simp)
        · rw [hstep] at h
          injection Except.ok.inj h with _ hb
          rw [← hb]
      | some utilities =>
        by_cases hres : name ∈ st.resolving
        · have hstep : resolveF raw merger (n + 1) st name =
              .error (.circular (cycleMsg st.resolving name)) := by
            rw [hstep0]
            simp only [resolveStep, hmem, hraw, if_pos hres]
          refine ⟨fun h => ?_, fun v st' h => ?_⟩
          · rw [hstep] at h
            injection h with h2
            exact ExpandErr.noConfusion h2
          · rw [hstep] at h
            exact absurd h (by simp)
        · have hfuel1 : remKeys raw (st.resolving ++ [name]) + 1 ≤ n := by
            have := remKeys_append_lt (mem_keys_of_alookup hraw) hres
            omega
          have htokF := resolveTokens_fuel raw merger n ih (splitWs utilities)
            ⟨st.expanded, st.resolving ++ [name]⟩ hfuel1
          cases htok : resolveTokens (resolveF raw merger n) (splitWs utilities)
              ⟨st.expanded, st.resolving ++ [name]⟩ with
          | error e =>
            have hstep : resolveF raw merger (n + 1) st name = .error e := by
              rw [hstep0]
              simp only [resolveStep, hmem, hraw, if_neg hres, htok]
            have hef : e ≠ .fuel := fun he => htokF.1 (he ▸ htok)
            refine ⟨fun h => ?_, fun v st' h => ?_⟩
            · rw [hstep] at h
              injection h with h2
              exact hef h2
            · rw [hstep] at h
              exact absurd h (by simp)
          | ok q =>
            obtain ⟨ts, st2⟩ := q
            have hstep : resolveF raw merger (n + 1) st name =
                .ok (applyMerger merger (joinSpace ts),
                  ⟨st2.expanded ++ [(name, applyMerger merger (joinSpace ts))],
                    st2.resolving.erase name⟩) := by
              rw [hstep0]
              simp only [resolveStep, hmem, hraw, if_neg hres, htok]
            have hres2 : st2.resolving = st.resolving ++ [name] :=
              htokF.2 ts st2 htok
            refine ⟨fun h => ?_, fun v st' h => ?_⟩
            · rw [hstep] at h
              exact absurd h (by simp)
            · rw [hstep] at h
              injection Except.ok.inj h with _ hb
              rw [← hb]
              show st2.resolving.erase name = st.resolving
              rw [hres2]
              exact erase_append_last hres

theorem runKeysF_fuel (raw : AliasMap) (merger : Option (String → String)) :
    ∀ ks st, runKeysF raw merger (raw.length + 1) ks st ≠ .error .fuel := by
  intro ks
  induction ks with
  | nil =>
    intro st h
    have h' : (Except.ok st : Except ExpandErr ResolveState) = .error .fuel := h
    exact absurd h' (by simp)
  | cons k ks ih =>
    intro st h
    have hfuel : remKeys raw st.resolving + 1 ≤ raw.length + 1 := by
      have := remKeys_le raw st.resolving
      omega
    have hF := resolveF_fuel raw merger (raw.length + 1) st k hfuel
    cases h1 : resolveF raw merger (raw.length + 1) st k with
    | error e =>
      have hstep : runKeysF raw merger (raw.length + 1) (k :: ks) st =
          .error e := by
        simp only [runKeysF, h1]
      rw [hstep] at h
      injection h with h2
      exact hF.1 (h2 ▸ h1)
    | ok p =>
      obtain ⟨v1, st1⟩ := p
      have hstep : runKeysF raw merger (raw.length + 1) (k :: ks) st =
          runKeysF raw merger (raw.length + 1) ks st1 := by
        simp only [runKeysF, h1]
      rw [hstep] at h
      exact ih st1 h

theorem expandE_not_fuel (raw : AliasMap) (merger : Option (String → String)) :
    expandE raw merger ≠ .error .fuel := by
  intro h
  unfold expandE expandEOrder at h
  cases hrun : runKeysF raw merger (raw.length + 1) (raw.map Prod.fst) ⟨[], []⟩ with
  | error e =>
    rw [hrun] at h
    have h' : (Except.error e : Except ExpandErr AliasMap) = .error .fuel := h
    injection h' with h2
    exact runKeysF_fuel raw merger (raw.map Prod.fst) ⟨[], []⟩ (h2 ▸ hrun)
  | ok st' =>
    rw [hrun] at h
    have h' : (Except.ok st'.expanded : Except ExpandErr AliasMap) =
        .error .fuel := h
    exact absurd h' (by simp)

/-- Claim C2: for every RawAliasMap containing a reference cycle reachable
from some key, `expand` fails with a CircularDependencyError (it can neither
succeed nor run out of the fuel it supplies), and in the self-reference and
mutual-reference examples the reported message contains the cycle chain in
discovery order, naming every alias on the cycle. -/
theorem C2_circular_dependency :
    (∀ (raw : AliasMap) (merger : Option (String → String)),
        (∃ k, Relation.TransGen (edgeE raw) k k) →
        ∃ msg, expandE raw merger = .error (.circular msg)) ∧
    expandE [("Button", "Button text-sm")] none =
      .error (.circular
        "[tailwind-expand] Circular dependency detected: Button → Button") ∧
    expandE [("A", "B text-sm"), ("B", "A font-bold")] none =
      .error (.circular
        "[tailwind-expand] Circular dependency detected: A → B → A") := by
  refine ⟨?_, rfl, rfl⟩
  intro raw merger hcyc
  cases h : expandE raw merger with
  | ok m => exact absurd h (expandE_cycle_not_ok raw merger hcyc m)
  | error e =>
    cases e with
    | circular msg => exact ⟨msg, rfl⟩
    | fuel => exact absurd h (expandE_not_fuel raw merger)

/-- Claim C2 witness: the general part applied to the self-referencing map,
with the cycle exhibited as a single edge Button → Button. -/
theorem C2_witness :
    ∃ msg, expandE [("Button", "Button text-sm")] none =
      .error (.circular msg) :=
  C2_circular_dependency.1 [("Button", "Button text-sm")] none
    ⟨"Button", Relation.TransGen.single
      ⟨"Button text-sm", rfl, rfl, by decide, rfl⟩⟩

/-! ### Pure namespace containers (claim C7) -/

theorem alookup_map_ite {m : AliasMap} {nm k : String} (hk : k ≠ nm)
    (f : String × String → String) :
    alookup (m.map (fun p => if p.1 = nm then (nm, f p) else p)) k =
      alookup m k := by
  induction m with
  | nil => rfl
  | cons p rest ih =>
    obtain ⟨k0, v0⟩ := p
    by_cases h0 : k0 = nm
    · show alookup ((if (k0, v0).1 = nm then (nm, f (k0, v0)) else (k0, v0)) ::
        rest.map (fun p => if p.1 = nm then (nm, f p) else p)) k = _
      rw [if_pos h0]
      show (if nm = k then some (f (k0, v0)) else
        alookup (rest.map (fun p => if p.1 = nm then (nm, f p) else p)) k) =
        alookup ((k0, v0) :: rest) k
      rw [if_neg (fun h => hk h.symm)]
      show _ = (if k0 = k then some v0 else alookup rest k)
      rw [if_neg (fun (h : k0 = k) => hk (h ▸ h0))]
      exact ih
    · show alookup ((if (k0, v0).1 = nm then (nm, f (k0, v0)) else (k0, v0)) ::
        rest.map (fun p => if p.1 = nm then (nm, f p) else p)) k = _
      rw [if_neg h0]
      show (if k0 = k then some v0 else _) = (if k0 = k then some v0 else _)
      by_cases hk0 : k0 = k
      · rw [if_pos hk0, if_pos hk0]
      · rw [if_neg hk0, if_neg hk0]
        exact ih

theorem mergeAlias_preserve {m : AliasMap} {nm u k : String} (hk : k ≠ nm) :
    alookup (mergeAlias m nm u) k = alookup m k := by
  unfold mergeAlias
  cases h : alookup m nm with
  | none =>
    show alookup (m ++ [(nm, u)]) k = alookup m k
    rw [alookup_append]
    cases h2 : alookup m k with
    | some v => rfl
    | none =>
      show (if nm = k then some u else alookup [] k) = none
      rw [if_neg (fun hh => hk hh.symm)]
      rfl
  | some v =>
    show alookup (if v ≠ "" then
        m.map (fun p => if p.1 = nm then (nm, v ++ " " ++ u) else p)
      else m.map (fun p => if p.1 = nm then (nm, u) else p)) k = alookup m k
    by_cases hv : v ≠ ""
    · rw [if_pos hv]
      exact alookup_map_ite hk _
    · rw [if_neg hv]
      exact alookup_map_ite hk _

theorem applyFold_preserve :
    ∀ (body : CssNodes) (nm : String) (m : AliasMap) (k : String), k ≠ nm →
      alookup (applyFold body nm m) k = alookup m k
  | .nil, nm, m, k, hk => rfl
  | .cons (.atRule nm2 params b) rest, nm, m, k, hk => by
    show alookup (if nm2 = "apply" then
        applyFold rest nm (mergeAlias m nm (trimJs params))
      else applyFold rest nm m) k = alookup m k
    by_cases h2 : nm2 = "apply"
    · rw [if_pos h2, applyFold_preserve rest nm _ k hk, mergeAlias_preserve hk]
    · rw [if_neg h2]
      exact applyFold_preserve rest nm m k hk
  | .cons (.rule s b) rest, nm, m, k, hk => applyFold_preserve rest nm m k hk
  | .cons .decl rest, nm, m, k, hk => applyFold_preserve rest nm m k hk

theorem goodSel_len {sel : String}
    (hg : goodSel sel = true)
    (h : startsAmp sel = true ∨ startsAmp (trimJs sel) = true) :
    2 ≤ (trimJs sel).data.length := by
  unfold goodSel at hg
  rcases h with h | h <;> rw [h] at hg <;> simp at hg <;> exact hg

theorem dropFirst_len {sel : String} (h : 2 ≤ (trimJs sel).data.length)
    (nm : String) :
    nm.data.length < (nm ++ dropFirst (trimJs sel)).data.length := by
  have h1 : (dropFirst (trimJs sel)).data.length =
      (trimJs sel).data.length - 1 := by
    show (trimJs sel).data.tail.length = _
    exact List.length_tail _
  have h2 : (nm ++ dropFirst (trimJs sel)).data.length =
      nm.data.length + (dropFirst (trimJs sel)).data.length := by
    show (nm.data ++ (dropFirst (trimJs sel)).data).length = _
    exact List.length_append _ _
  omega

theorem nestedChildren_preserve :
    ∀ (body : CssNodes) (nm : String) (m m' : AliasMap),
      goodNodes body = true → nestedChildren body nm m = .ok m' →
      ∀ k, k.data.length ≤ nm.data.length → alookup m' k = alookup m k
  | .nil, nm, m, m', hg, heq, k, hk => by
    have h' : (Except.ok m : Except String AliasMap) = .ok m' := heq
    rw [← Except.ok.inj h']
  | .cons (.atRule nm2 params b) rest, nm, m, m', hg, heq, k, hk => by
    have heq1 : nestedChildren rest nm m = .ok m' := heq
    simp only [goodNodes, Bool.and_eq_true] at hg
    exact nestedChildren_preserve rest nm m m' hg.2 heq1 k hk
  | .cons .decl rest, nm, m, m', hg, heq, k, hk => by
    have heq1 : nestedChildren rest nm m = .ok m' := heq
    simp only [goodNodes] at hg
    exact nestedChildren_preserve rest nm m m' hg heq1 k hk
  | .cons (.rule sel2 b2) rest, nm, m, m', hg, heq, k, hk => by
    simp only [goodNodes, Bool.and_eq_true] at hg
    obtain ⟨⟨hgs, hgb⟩, hgr⟩ := hg
    have heq1 : (if startsAmp sel2 = true then
          match validateCamelCase (nm ++ dropFirst (trimJs sel2)) with
          | .error e => (.error e : Except String AliasMap)
          | .ok _ =>
            match nestedChildren b2 (nm ++ dropFirst (trimJs sel2))
                (applyFold b2 (nm ++ dropFirst (trimJs sel2)) m) with
            | .error e => .error e
            | .ok m2 => nestedChildren rest nm m2
        else nestedChildren rest nm m) = .ok m' := heq
    by_cases hamp : startsAmp sel2 = true
    · rw [if_pos hamp] at heq1
      cases hval : validateCamelCase (nm ++ dropFirst (trimJs sel2)) with
      | error e =>
        rw [hval] at heq1
        have h2 : (Except.error e : Except String AliasMap) = .ok m' := heq1
        exact absurd h2 (by simp)
      | ok u =>
        rw [hval] at heq1
        cases hb : nestedChildren b2 (nm ++ dropFirst (trimJs sel2))
            (applyFold b2 (nm ++ dropFirst (trimJs sel2)) m) with
        | error e =>
          rw [hb] at heq1
          have h2 : (Except.error e : Except String AliasMap) = .ok m' := heq1
          exact absurd h2 (by simp)
        | ok m2 =>
          rw [hb] at heq1
          have h2 : nestedChildren rest nm m2 = .ok m' := heq1
          have hlen : nm.data.length <
              (nm ++ dropFirst (trimJs sel2)).data.length :=
            dropFirst_len (goodSel_len hgs (Or.inl hamp)) nm
          have hk2 : k ≠ nm ++ dropFirst (trimJs sel2) := by
            intro hkk
            rw [hkk] at hk
            omega
          rw [nestedChildren_preserve rest nm m2 m' hgr h2 k hk,
            nestedChildren_preserve b2 _ _ m2 hgb hb k (by omega),
            applyFold_preserve b2 _ _ k hk2]
    · rw [if_neg hamp] at heq1
      exact nestedChildren_preserve rest nm m m' hgr heq1 k hk

theorem parseExpandChildren_preserve :
    ∀ (body : CssNodes) (pfx : String) (m m' : AliasMap),
      goodNodes body = true → noDirectApply body = true →
      parseExpandChildren body pfx m = .ok m' →
      ∀ k, k.data.length ≤ pfx.data.length → alookup m' k = alookup m k
  | .nil, pfx, m, m', hg, hnd, heq, k, hk => by
    have h' : (Except.ok m : Except String AliasMap) = .ok m' := heq
    rw [← Except.ok.inj h']
  | .cons (.atRule nm2 params b) rest, pfx, m, m', hg, hnd, heq, k, hk => by
    simp only [goodNodes, Bool.and_eq_true] at hg
    simp only [noDirectApply, Bool.and_eq_true] at hnd
    have hne : ¬ nm2 = "apply" := by simpa using hnd.1
    have heq1 : (if nm2 = "apply" then
          parseExpandChildren rest pfx (mergeAlias m pfx (trimJs params))
        else parseExpandChildren rest pfx m) = .ok m' := heq
    rw [if_neg hne] at heq1
    exact parseExpandChildren_preserve rest pfx m m' hg.2 hnd.2 heq1 k hk
  | .cons .decl rest, pfx, m, m', hg, hnd, heq, k, hk => by
    have heq1 : parseExpandChildren rest pfx m = .ok m' := heq
    simp only [goodNodes] at hg
    simp only [noDirectApply] at hnd
    exact parseExpandChildren_preserve rest pfx m m' hg hnd heq1 k hk
  | .cons (.rule sel b) rest, pfx, m, m', hg, hnd, heq, k, hk => by
    simp only [goodNodes, Bool.and_eq_true] at hg
    obtain ⟨⟨hgs, hgb⟩, hgr⟩ := hg
    simp only [noDirectApply] at hnd
    have heq1 : (if startsAmp (trimJs sel) = true then
          match validateCamelCase (pfx ++ dropFirst (trimJs sel)) with
          | .error e => (.error e : Except String AliasMap)
          | .ok _ =>
            match nestedChildren b (pfx ++ dropFirst (trimJs sel))
                (applyFold b (pfx ++ dropFirst (trimJs sel)) m) with
            | .error e => .error e
            | .ok m2 => parseExpandChildren rest pfx m2
        else parseExpandChildren rest pfx m) = .ok m' := heq
    by_cases hamp : startsAmp (trimJs sel) = true
    · rw [if_pos hamp] at heq1
      cases hval : validateCamelCase (pfx ++ dropFirst (trimJs sel)) with
      | error e =>
        rw [hval] at heq1
        have h2 : (Except.error e : Except String AliasMap) = .ok m' := heq1
        exact absurd h2 (by simp)
      | ok u =>
        rw [hval] at heq1
        cases hb : nestedChildren b (pfx ++ dropFirst (trimJs sel))
            (applyFold b (pfx ++ dropFirst (trimJs sel)) m) with
        | error e =>
          rw [hb] at heq1
          have h2 : (Except.error e : Except String AliasMap) = .ok m' := heq1
          exact absurd h2 (by simp)
        | ok m2 =>
          rw [hb] at heq1
          have h2 : parseExpandChildren rest pfx m2 = .ok m' := heq1
          have hlen : pfx.data.length <
              (pfx ++ dropFirst (trimJs sel)).data.length :=
            dropFirst_len (goodSel_len hgs (Or.inr hamp)) pfx
          have hk2 : k ≠ pfx ++ dropFirst (trimJs sel) := by
            intro hkk
            rw [hkk] at hk
            omega
          rw [parseExpandChildren_preserve rest pfx m2 m' hgr hnd h2 k hk,
            nestedChildren_preserve b _ _ m2 hgb hb k (by omega),
            applyFold_preserve b _ _ k hk2]
    · rw [if_neg hamp] at heq1
      exact parseExpandChildren_preserve rest pfx m m' hgr hnd heq1 k hk

/-- Claim C7: a block with zero direct `@apply` statements (a pure namespace
container, with well-modified sub-selectors) adds no entry for any name at
most as long as its own — in particular none for its own name — while its
nested sub-blocks are still parsed and registered; concretely, a Typography
block containing only &Caption and &Heading sub-blocks yields exactly the
entries TypographyCaption and TypographyHeading and no Typography entry. -/
theorem C7_pure_namespace_block :
    (∀ (body : CssNodes) (pfx : String) (m m' : AliasMap),
        goodNodes body = true → noDirectApply body = true →
        parseExpandChildren body pfx m = .ok m' →
        ∀ k, k.data.length ≤ pfx.data.length → alookup m' k = alookup m k) ∧
    extractFromRoot (.cons (.atRule "expand" "Typography"
        (.cons (.rule "&Caption" (.cons (.atRule "apply" "text-xs" .nil) .nil))
          (.cons (.rule "&Heading"
            (.cons (.atRule "apply" "text-lg font-bold" .nil) .nil)) .nil)))
      .nil) =
      .ok [("TypographyCaption", "text-xs"),
        ("TypographyHeading", "text-lg font-bold")] :=
  ⟨parseExpandChildren_preserve, rfl⟩

/-- Claim C7 witness: the general part applied to the Typography block body
at prefix "Typography" over the empty map, showing the result has no
Typography entry. -/
theorem C7_witness :
    goodNodes (.cons (.rule "&Caption"
        (.cons (.atRule "apply" "text-xs" .nil) .nil))
      (.cons (.rule "&Heading"
        (.cons (.atRule "apply" "text-lg font-bold" .nil) .nil)) .nil)) = true ∧
    noDirectApply (.cons (.rule "&Caption"
        (.cons (.atRule "apply" "text-xs" .nil) .nil))
      (.cons (.rule "&Heading"
        (.cons (.atRule "apply" "text-lg font-bold" .nil) .nil)) .nil)) = true ∧
    parseExpandChildren (.cons (.rule "&Caption"
        (.cons (.atRule "apply" "text-xs" .nil) .nil))
      (.cons (.rule "&Heading"
        (.cons (.atRule "apply" "text-lg font-bold" .nil) .nil)) .nil))
      "Typography" [] =
      .ok [("TypographyCaption", "text-xs"),
        ("TypographyHeading", "text-lg font-bold")] ∧
    alookup [("TypographyCaption", "text-xs"),
      ("TypographyHeading", "text-lg font-bold")] "Typography" = none :=
  ⟨by decide, by decide, rfl,
    C7_pure_namespace_block.1
      (.cons (.rule "&Caption" (.cons (.atRule "apply" "text-xs" .nil) .nil))
        (.cons (.rule "&Heading"
          (.cons (.atRule "apply" "text-lg font-bold" .nil) .nil)) .nil))
      "Typography" []
      [("TypographyCaption", "text-xs"),
        ("TypographyHeading", "text-lg font-bold")]
      (by decide) (by decide) rfl "Typography" (Nat.le_refl _)⟩

end TwExpand
